import Mathlib

/-!
Verification of the enmime header core (src/header.go, src/unnamed/part_002).

The model works at the byte level: a Go string is a `List Nat` of its UTF-8
bytes.  Pure Go functions from the source are translated directly; the Go
standard-library routines that src/header.go delegates to
(strings.Index/Contains/FieldsFunc/EqualFold, mime.WordDecoder.DecodeHeader,
mime.BEncoding.Encode, net/textproto.Reader.ReadMIMEHeader) are embedded
by translating their semantics at the same byte level.  The charset backend
`newCharsetReader` is referenced by src/header.go line 94 but its definition
is not part of the sources; it is modelled from the spec (section 6).
-/

/-- Byte value of a character: UTF-8 encoding of one code point. -/
def utf8Bytes (c : Char) : List Nat :=
  let n := c.toNat
  if n < 128 then [n]
  else if n < 2048 then [192 + n / 64, 128 + n % 64]
  else if n < 65536 then [224 + n / 4096, 128 + (n / 64) % 64, 128 + n % 64]
  else [240 + n / 262144, 128 + (n / 4096) % 64, 128 + (n / 64) % 64, 128 + n % 64]

/-- Bytes of a Go string literal: UTF-8 bytes of each character, concatenated. -/
def str (s : String) : List Nat :=
  s.data.foldr (fun c acc => utf8Bytes c ++ acc) []

/-- Whether `pat` is an initial segment of `s` (byte-wise). -/
def leadsWith : List Nat → List Nat → Bool
  | [], _ => true
  | _ :: _, [] => false
  | p :: ps, c :: cs => p = c && leadsWith ps cs

/-- Model of Go `strings.Index(s, pat)`: first byte offset at which `pat`
occurs in `s`, or `none` for Go's `-1`. -/
def strIndex : List Nat → List Nat → Option Nat
  | [], pat => if leadsWith pat [] then some 0 else none
  | c :: rest, pat =>
    if leadsWith pat (c :: rest) then some 0 else (strIndex rest pat).map (· + 1)

/-- Model of Go `strings.Contains(s, pat)`. -/
def strContains (s pat : List Nat) : Bool :=
  (strIndex s pat).isSome

/-- The two-byte marker "=?" that opens an encoded-word. -/
def eqMark : List Nat := [61, 63]

/-- The one-byte marker "?". -/
def qMark : List Nat := [63]

/-- The two-byte marker "?=" that closes an encoded-word. -/
def qeMark : List Nat := [63, 61]

/-- Source `isWhiteSpaceRune` (src/header.go lines 138-151): RFC-822
linear whitespace detector over space, tab, carriage return, line feed. -/
def isWhiteSpaceRune (b : Nat) : Bool :=
  b = 32 || b = 9 || b = 13 || b = 10

/-- Go `mime` package helper `hasNonWhitespace`: whether the span holds a
byte other than space, tab, line feed, carriage return. -/
def hasNonWhitespace : List Nat → Bool
  | [] => false
  | b :: rest => if b = 32 || b = 9 || b = 10 || b = 13 then hasNonWhitespace rest else true

/-- Hex digit value accepted by Go `mime`'s `fromHex`: 0-9, A-F, and
(tolerated for badly encoded input) a-f. -/
def fromHex (b : Nat) : Option Nat :=
  if 48 ≤ b ∧ b ≤ 57 then some (b - 48)
  else if 65 ≤ b ∧ b ≤ 70 then some (b - 65 + 10)
  else if 97 ≤ b ∧ b ≤ 102 then some (b - 97 + 10)
  else none

/-- Go `mime`'s `readHexByte`: byte from two hex digits. -/
def readHexByte (a b : Nat) : Option Nat :=
  match fromHex a, fromHex b with
  | some ha, some hb => some (ha * 16 + hb)
  | _, _ => none

/-- Go `mime`'s `qDecode`, the Q (quoted-printable style) decoder for
encoded-word bodies: underscore becomes space, `=XY` is a hex escape,
printable bytes and tab/CR/LF pass through, anything else is an error. -/
def qDecode : List Nat → Option (List Nat)
  | [] => some []
  | c :: rest =>
    if c = 95 then (qDecode rest).map (32 :: ·)
    else if c = 61 then
      match rest with
      | h1 :: h2 :: rest' =>
        match readHexByte h1 h2 with
        | some b => (qDecode rest').map (b :: ·)
        | none => none
      | _ => none
    else if (32 ≤ c ∧ c ≤ 126) ∨ c = 10 ∨ c = 13 ∨ c = 9 then (qDecode rest).map (c :: ·)
    else none

/-- Value of a base64 alphabet byte (A-Z a-z 0-9 + /), if any. -/
def b64Val (b : Nat) : Option Nat :=
  if 65 ≤ b ∧ b ≤ 90 then some (b - 65)
  else if 97 ≤ b ∧ b ≤ 122 then some (b - 97 + 26)
  else if 48 ≤ b ∧ b ≤ 57 then some (b - 48 + 52)
  else if b = 43 then some 62
  else if b = 47 then some 63
  else none

/-- Base64 alphabet byte for a 6-bit value. -/
def b64Chr (x : Nat) : Nat :=
  if x < 26 then 65 + x
  else if x < 52 then 97 + (x - 26)
  else if x < 62 then 48 + (x - 52)
  else if x = 62 then 43
  else 47

/-- Model of Go `base64.StdEncoding` encoding: 3-byte groups to 4 alphabet
bytes, with `=` padding for a 1- or 2-byte tail. -/
def b64encode : List Nat → List Nat
  | b1 :: b2 :: b3 :: rest =>
    let n := (b1 % 256) * 65536 + (b2 % 256) * 256 + b3 % 256
    b64Chr (n / 262144) :: b64Chr (n / 4096 % 64) :: b64Chr (n / 64 % 64) :: b64Chr (n % 64)
      :: b64encode rest
  | [b1, b2] =>
    let n := (b1 % 256) * 65536 + (b2 % 256) * 256
    [b64Chr (n / 262144), b64Chr (n / 4096 % 64), b64Chr (n / 64 % 64), 61]
  | [b1] =>
    let n := (b1 % 256) * 65536
    [b64Chr (n / 262144), b64Chr (n / 4096 % 64), 61, 61]
  | [] => []

/-- Decoding of base64 quanta of four alphabet bytes; a padded quantum must
be the final one.  Mirrors Go `base64.StdEncoding` strict decoding. -/
def b64quanta : List Nat → Option (List Nat)
  | [] => some []
  | c1 :: c2 :: c3 :: c4 :: rest =>
    match b64Val c1, b64Val c2 with
    | some x1, some x2 =>
      if c3 = 61 then
        if c4 = 61 ∧ rest = [] then some [(x1 * 262144 + x2 * 4096) / 65536] else none
      else
        match b64Val c3 with
        | some x3 =>
          if c4 = 61 then
            if rest = [] then
              let y := x1 * 262144 + x2 * 4096 + x3 * 64
              some [y / 65536, y / 256 % 256]
            else none
          else
            match b64Val c4 with
            | some x4 =>
              let y := x1 * 262144 + x2 * 4096 + x3 * 64 + x4
              (b64quanta rest).map (fun tl => y / 65536 :: y / 256 % 256 :: y % 256 :: tl)
            | none => none
        | none => none
    | _, _ => none
  | _ => none

/-- Model of Go `base64.StdEncoding.DecodeString`: newline bytes are
ignored, then the input must consist of whole quanta. -/
def b64decode (s : List Nat) : Option (List Nat) :=
  b64quanta (s.filter (fun b => b ≠ 13 ∧ b ≠ 10))

/-- Go `mime`'s `decode`: dispatch on the encoding discriminator byte;
`B`/`b` is base64, `Q`/`q` is the Q decoding, all else is an error. -/
def decodeEnc (e : Nat) (text : List Nat) : Option (List Nat) :=
  if e = 66 ∨ e = 98 then b64decode text
  else if e = 81 ∨ e = 113 then qDecode text
  else none

/-- ASCII case folding of one byte, as used by Go `strings.EqualFold` and
`strings.ToLower` on the ASCII charset names in scope here. -/
def foldByte (b : Nat) : Nat :=
  if 65 ≤ b ∧ b ≤ 90 then b + 32 else b

/-- Model of Go `strings.EqualFold` restricted to byte strings (exact for
the ASCII data in scope). -/
def equalFold : List Nat → List Nat → Bool
  | [], [] => true
  | a :: as, b :: bs => foldByte a = foldByte b && equalFold as bs
  | _, _ => false

/-- Model of Go `strings.ToLower` on byte strings (exact for ASCII). -/
def toLowerB (s : List Nat) : List Nat :=
  s.map foldByte

/-- UTF-8 bytes of the rune with code point `b` below 256, as produced by
Go `bytes.Buffer.WriteRune` in the ISO-8859-1 branch of `convert`. -/
def latin1Rune (b : Nat) : List Nat :=
  if b < 128 then [b] else [192 + b / 64, 128 + b % 64]

/-- Big5 byte-pair mapping of the backend, covering the code points the
repository's data exercises.  Modelled from the spec: the charset backend
must support at least one East-Asian multi-byte set (section 6). -/
def big5Pair (hi lo : Nat) : List Nat :=
  if hi = 161 ∧ lo = 93 then [239, 188, 136]
  else if hi = 161 ∧ lo = 97 then [239, 189, 155]
  else if hi = 161 ∧ lo = 113 then [227, 128, 136]
  else [239, 191, 189]

/-- Big5 decoding to UTF-8 bytes: lead bytes at or above 0x80 consume a
trail byte via `big5Pair`, ASCII bytes pass through. -/
def big5Decode : List Nat → List Nat
  | [] => []
  | b :: rest =>
    if b < 128 then b :: big5Decode rest
    else match rest with
      | lo :: rest' => big5Pair b lo ++ big5Decode rest'
      | [] => [239, 191, 189]

/-- ISO-8859-2 decoding to UTF-8 bytes for the byte range the repository's
data exercises: ASCII bytes pass through, higher bytes are substituted. -/
def latin2Decode (content : List Nat) : List Nat :=
  content.foldr (fun b acc => (if b < 128 then [b] else [239, 191, 189]) ++ acc) []

/-- Modelled from the spec: `newCharsetReader`, the charset backend seam
called by src/header.go line 94 but absent from the sources.  Per section 6
it takes a lower-cased charset name and bytes and either produces text or
fails for an unknown charset; it must cover the common email charsets,
including at least one East-Asian multi-byte set, here big5. -/
def newCharsetReader (name : List Nat) (content : List Nat) : Option (List Nat) :=
  if name = str "big5" then some (big5Decode content)
  else if name = str "iso-8859-2" then some (latin2Decode content)
  else none

/-- Go `mime.WordDecoder.convert` with the repository's `CharsetReader`
plugged in: utf-8 passes bytes through, iso-8859-1 re-encodes each byte as
a rune, us-ascii keeps bytes below 0x80 and substitutes U+FFFD otherwise,
anything else goes to the backend with the lower-cased name. -/
def wdConvert (charset : List Nat) (content : List Nat) : Option (List Nat) :=
  if equalFold (str "utf-8") charset then some content
  else if equalFold (str "iso-8859-1") charset then some (content.foldr (fun b acc => latin1Rune b ++ acc) [])
  else if equalFold (str "us-ascii") charset then
    some (content.foldr (fun b acc => (if b ≥ 128 then [239, 191, 189] else [b]) ++ acc) [])
  else newCharsetReader (toLowerB charset) content

/-- Scanning part of one iteration of the Go `mime.WordDecoder.DecodeHeader`
loop body: locate `=?`, the `?` terminating the charset, the encoding byte
followed by `?`, and the closing `?=`.  The result carries the offset of
`=?`, the charset span, the encoding byte, the text span, and the
remainder after `?=`; `none` collects the `break` cases of the loop. -/
def scanWord (h : List Nat) : Option (Nat × List Nat × Nat × List Nat × List Nat) :=
  match strIndex h eqMark with
  | none => none
  | some start =>
    let h1 := h.drop (start + 2)
    match strIndex h1 qMark with
    | none => none
    | some i =>
      let charset := h1.take i
      let h2 := h1.drop (i + 1)
      if h2.length < 4 then none
      else if h2.getD 1 0 ≠ 63 then none
      else
        let h3 := h2.drop 2
        match strIndex h3 qeMark with
        | none => none
        | some j => some (start, charset, h2.headD 0, h3.take j, h3.drop (j + 2))

/-- The loop of Go `mime.WordDecoder.DecodeHeader`, which src/header.go
line 95 invokes: repeatedly scan for an encoded-word; a failed scan breaks
the loop and flushes the remaining header; a decode failure emits the two
marker bytes and rescans just after them; a charset conversion failure
fails the whole call; a whitespace-only gap between two decoded words is
elided.  The fuel argument bounds the iteration count; each iteration
consumes at least two bytes of the remaining header, so the top-level fuel
`length + 1` never runs out. -/
def decodeLoop : Nat → Bool → List Nat → List Nat → Option (List Nat)
  | 0, _, _, _ => none
  | fuel + 1, bw, buf, h =>
    match scanWord h with
    | none => some (buf ++ h)
    | some (start, charset, encoding, text, rest) =>
      match decodeEnc encoding text with
      | none => decodeLoop fuel false (buf ++ h.take (start + 2)) (h.drop (start + 2))
      | some content =>
        let buf1 := if 0 < start ∧ (bw = false ∨ hasNonWhitespace (h.take start) = true)
          then buf ++ h.take start else buf
        match wdConvert charset content with
        | none => none
        | some out => decodeLoop fuel true (buf1 ++ out) rest

/-- Go `mime.WordDecoder.DecodeHeader`: `none` models an error return. -/
def goDecodeHeader (header : List Nat) : Option (List Nat) :=
  match strIndex header eqMark with
  | none => some header
  | some i => decodeLoop (header.length + 1) false (header.take i) (header.drop i)

/-- Source `decodeHeader` (src/header.go lines 87-100): skip strings
without the `=?` marker, otherwise run the word decoder and fall back to
the input on error. -/
def decodeHeader (input : List Nat) : List Nat :=
  if strContains input eqMark = false then input
  else
    match goDecodeHeader input with
    | none => input
    | some header => header

/-- Go `mime`'s `needsEncoding`: whether the text holds a byte outside
printable ASCII (other than tab), so that `WordEncoder.Encode` must
produce an encoded-word rather than return the text verbatim. -/
def needsEncoding : List Nat → Bool
  | [] => false
  | b :: rest => if (b < 32 ∨ 126 < b) ∧ b ≠ 9 then true else needsEncoding rest

/-- Byte shape of one encoded-word `=?charset?e?text?=`. -/
def mkWord (charset : List Nat) (e : Nat) (text : List Nat) : List Nat :=
  [61, 63] ++ charset ++ [63, e, 63] ++ text ++ [63, 61]

/-- Byte length of the leading UTF-8 rune, as Go `utf8.DecodeRuneInString`
reports it: 1 for ASCII and for every invalid encoding (bad first byte,
truncated sequence, or continuation byte out of its accepted range),
otherwise the length of the sequence. -/
def utf8RuneLen : List Nat → Nat
  | [] => 0
  | b0 :: rest =>
    if b0 < 128 then 1
    else if 194 ≤ b0 ∧ b0 ≤ 223 then
      match rest with
      | b1 :: _ => if 128 ≤ b1 ∧ b1 ≤ 191 then 2 else 1
      | _ => 1
    else if 224 ≤ b0 ∧ b0 ≤ 239 then
      match rest with
      | b1 :: b2 :: _ =>
        if (if b0 = 224 then 160 ≤ b1 ∧ b1 ≤ 191
            else if b0 = 237 then 128 ≤ b1 ∧ b1 ≤ 159
            else 128 ≤ b1 ∧ b1 ≤ 191) ∧ (128 ≤ b2 ∧ b2 ≤ 191) then 3 else 1
      | _ => 1
    else if 240 ≤ b0 ∧ b0 ≤ 244 then
      match rest with
      | b1 :: b2 :: b3 :: _ =>
        if (if b0 = 240 then 144 ≤ b1 ∧ b1 ≤ 191
            else if b0 = 244 then 128 ≤ b1 ∧ b1 ≤ 143
            else 128 ≤ b1 ∧ b1 ≤ 191) ∧ (128 ≤ b2 ∧ b2 ≤ 191) ∧ (128 ≤ b3 ∧ b3 ≤ 191)
          then 4 else 1
      | _ => 1
    else 1

/-- The greedy rune-aligned chunking loop of Go `WordEncoder.bEncode`:
runes accumulate into the current chunk while it stays within 45 content
bytes (`base64.StdEncoding.DecodedLen` of the 63-byte content budget of a
75-byte encoded-word); a rune that would overflow flushes the chunk and
opens the next one with that rune.  Each step consumes at least one byte,
so fuel equal to the length never runs out. -/
def chunksB64 : Nat → List Nat → Nat → List Nat → List (List Nat)
  | _, [], _, cur => [cur]
  | 0, s, _, cur => [cur ++ s]
  | fuel + 1, s, currentLen, cur =>
    let rl := utf8RuneLen s
    if currentLen + rl ≤ 45 then chunksB64 fuel (s.drop rl) (currentLen + rl) (cur ++ s.take rl)
    else cur :: chunksB64 fuel (s.drop rl) rl (s.take rl)

/-- Interleaving of a separator between items, as Go's repeated
`splitWord` does between the base64 bodies of successive words. -/
def joinWithSep : List (List Nat) → List Nat → List Nat
  | [], _ => []
  | [x], _ => x
  | x :: rest, sep => x ++ sep ++ joinWithSep rest sep

/-- Model of Go `mime.BEncoding.Encode` (the `b` word encoder invoked by
src/header.go line 126): text needing no encoding is returned verbatim;
otherwise it is wrapped as `=?charset?b?base64?=`, and — per RFC 2047's
75-byte limit on one encoded-word — when the charset is UTF-8 and the
encoded length of the text exceeds the 63-byte content budget, the text is
chunked along rune boundaries into runs of at most 45 bytes, each
emitted as its own word, the words separated by `?= =?charset?b?`
(`splitWord`: close the word, one space, open the next). -/
def bEncode (charset s : List Nat) : List Nat :=
  if needsEncoding s = false then s
  else
    [61, 63] ++ charset ++ [63, 98, 63] ++
      (if equalFold charset (str "utf-8") = false ∨ (s.length + 2) / 3 * 4 ≤ 63 then
        b64encode s
      else
        joinWithSep ((chunksB64 s.length s 0 []).map b64encode)
          ([63, 61, 32, 61, 63] ++ charset ++ [63, 98, 63])) ++
      [63, 61]

/-- The byte string formed by a run of `=?UTF-8?b?…?=` words holding the
base64 of successive chunks, separated by single spaces: the shape
`bEncode` produces on the splitting path. -/
def wordsJoin : List (List Nat) → List Nat
  | [] => []
  | [c] => mkWord (str "UTF-8") 98 (b64encode c)
  | c :: rest => mkWord (str "UTF-8") 98 (b64encode c) ++ [32] ++ wordsJoin rest

/-- Accumulator pass of Go `strings.FieldsFunc`: split at whitespace runs,
dropping empty fields. -/
def fieldsAux : List Nat → List Nat → List (List Nat)
  | [], acc => if acc = [] then [] else [acc.reverse]
  | c :: rest, acc =>
    if isWhiteSpaceRune c then
      (if acc = [] then fieldsAux rest [] else acc.reverse :: fieldsAux rest [])
    else fieldsAux rest (c :: acc)

/-- Model of Go `strings.FieldsFunc` with `isWhiteSpaceRune` as the
separator predicate (src/header.go line 110). -/
def fieldsFunc (s : List Nat) : List (List Nat) :=
  fieldsAux s []

/-- Model of Go `strings.Join` with a single-space separator. -/
def joinSpace : List (List Nat) → List Nat
  | [] => []
  | [t] => t
  | t :: rest => t ++ [32] ++ joinSpace rest

/-- Per-token body of the loop in src/header.go lines 112-131: a token
longer than 4 bytes containing `=?` has one leading `(` and one trailing
`)` stashed, is decoded via `decodeHeader`, re-encoded with
`mime.BEncoding.Encode("UTF-8", _)`, and the parentheses re-attached;
other tokens pass unchanged. -/
def reencodeToken (token : List Nat) : List Nat :=
  if 4 < token.length ∧ strContains token eqMark = true then
    let pre : List Nat := if token.headD 0 = 40 then [40] else []
    let t1 : List Nat := if token.headD 0 = 40 then token.drop 1 else token
    let suf : List Nat := if t1.getLastD 0 = 41 then [41] else []
    let t2 : List Nat := if t1.getLastD 0 = 41 then t1.dropLast else t1
    pre ++ bEncode (str "UTF-8") (decodeHeader t2) ++ suf
  else token

/-- Source `decodeToUTF8Base64Header` (src/header.go lines 103-135). -/
def decodeToUTF8Base64Header (input : List Nat) : List Nat :=
  if strContains input eqMark = false then input
  else joinSpace ((fieldsFunc input).map reencodeToken)

/-- Split a byte stream at the first line feed: the line (line feed
excluded) and the remainder, or `none` when no line feed is left.  Models
`bufio.Reader.ReadSlice` with a newline delimiter, where `none` is the
io error returned at end of stream. -/
def splitNL : List Nat → Option (List Nat × List Nat)
  | [] => none
  | b :: rest =>
    if b = 10 then some ([], rest)
    else (splitNL rest).map (fun pr => (b :: pr.1, pr.2))

/-- Drop one trailing carriage return, as `bufio.ReadLine` does after the
line feed is removed. -/
def trimCR (line : List Nat) : List Nat :=
  if line.getLastD 0 = 13 then line.dropLast else line

/-- Go `textproto`'s `trim`: strip leading and trailing spaces and tabs. -/
def trimST (line : List Nat) : List Nat :=
  ((line.dropWhile (fun b => b = 32 || b = 9)).reverse.dropWhile (fun b => b = 32 || b = 9)).reverse

/-- Continuation-folding loop of Go `textproto.Reader.readContinuedLineSlice`:
while the next stream byte is a space or tab, consume that whitespace run,
read the next line, and append a single space plus the trimmed line. -/
def contLoop : Nat → List Nat → List Nat → Option (List Nat × List Nat)
  | 0, _, _ => none
  | fuel + 1, acc, s =>
    if s.headD 0 = 32 ∨ s.headD 0 = 9 then
      match splitNL (s.dropWhile (fun b => b = 32 || b = 9)) with
      | none => none
      | some (raw, rest) => contLoop fuel (acc ++ [32] ++ trimST (trimCR raw)) rest
    else some (acc, s)

/-- Go `textproto.Reader.readContinuedLineSlice`: one logical header line,
with classically folded (whitespace-led) continuation lines joined. -/
def readContinued (s : List Nat) : Option (List Nat × List Nat) :=
  match splitNL s with
  | none => none
  | some (raw, rest) =>
    let line := trimCR raw
    if line = [] then some ([], rest)
    else contLoop (rest.length + 1) (trimST line) rest

/-- Byte allowed in a header field name by Go `textproto`'s
`validHeaderFieldByte` (RFC 7230 token characters). -/
def validKeyByte (b : Nat) : Bool :=
  (48 ≤ b && b ≤ 57) || (65 ≤ b && b ≤ 90) || (97 ≤ b && b ≤ 122) ||
  b = 33 || b = 35 || b = 36 || b = 37 || b = 38 || b = 39 || b = 42 ||
  b = 43 || b = 45 || b = 46 || b = 94 || b = 95 || b = 96 || b = 124 || b = 126

/-- Case canonicalization pass of Go `textproto.canonicalMIMEHeaderKey`:
letters are upper-cased at the start and after each dash, lower-cased
elsewhere. -/
def canonCase : Bool → List Nat → List Nat
  | _, [] => []
  | up, c :: rest =>
    let c' := if up ∧ 97 ≤ c ∧ c ≤ 122 then c - 32
      else if ¬ up ∧ 65 ≤ c ∧ c ≤ 90 then c + 32
      else c
    c' :: canonCase (c' = 45) rest

/-- Go `textproto.canonicalMIMEHeaderKey`: keys holding a byte that is not
a valid field-name byte are returned unchanged, others are canonicalized. -/
def canonicalKey (k : List Nat) : List Nat :=
  if k.all validKeyByte then canonCase true k else k

/-- A parsed header block: field names in insertion order, each with its
values in order.  Models `textproto.MIMEHeader` restricted to the
operations the claims use. -/
abbrev MimeMap : Type := List (List Nat × List (List Nat))

/-- Record a key/value pair, appending to the value list of an existing
key or adding a new entry. -/
def addEntry : MimeMap → List Nat → List Nat → MimeMap
  | [], k, v => [(k, [v])]
  | (k', vs) :: rest, k, v =>
    if k' = k then (k', vs ++ [v]) :: rest else (k', vs) :: addEntry rest k v

/-- Go `textproto.MIMEHeader.Get`: canonicalize the key and return the
first stored value, or the empty string. -/
def mimeGet : MimeMap → List Nat → List Nat
  | [], _ => []
  | (k', vs) :: rest, key => if k' = canonicalKey key then vs.headD [] else mimeGet rest key

/-- Main loop of Go `textproto.Reader.ReadMIMEHeader`: read logical lines
until the blank line; each must contain a colon; the name is everything
before the colon with trailing spaces removed, the value everything after
it with leading spaces and tabs removed.  `none` models an error. -/
def rmhLoop : Nat → MimeMap → List Nat → Option MimeMap
  | 0, _, _ => none
  | fuel + 1, m, s =>
    match readContinued s with
    | none => none
    | some (kv, rest) =>
      if kv = [] then some m
      else
        match strIndex kv [58] with
        | none => none
        | some i =>
          let key := canonicalKey ((kv.take i).reverse.dropWhile (fun b => b = 32) |>.reverse)
          let value := (kv.drop (i + 1)).dropWhile (fun b => b = 32 || b = 9)
          rmhLoop fuel (addEntry m key value) rest

/-- Go `textproto.Reader.ReadMIMEHeader` on a byte buffer. -/
def readMIMEHeader (s : List Nat) : Option MimeMap :=
  rmhLoop (s.length + 1) [] s

/-- Diagnostic-collecting part, as consumed by `readHeader`.  Modelled from
the spec: the caller-owned Diagnostic sink (sections 3 and 6); the full
`Part` type lives outside the given sources. -/
structure GoPart where
  ErrorNames : List (List Nat)

/-- Line-collecting loop of source `readHeader` (src/header.go lines
67-77): read a line including its line feed; an io error is propagated
directly; a line that is empty or starts with carriage return or line feed
ends the headers; other lines are copied verbatim to the buffer. -/
def rhLoop : Nat → List Nat → List Nat → Except Unit (List Nat × List Nat)
  | 0, _, _ => .error ()
  | fuel + 1, buf, s =>
    match splitNL s with
    | none => .error ()
    | some (line, rest) =>
      if line = [] ∨ line.headD 0 = 13 then .ok (buf, rest)
      else rhLoop fuel (buf ++ line ++ [10]) rest

/-- Source `readHeader` (src/header.go lines 63-84): collect the raw
header lines, append a CRLF terminator, and hand the buffer to
`textproto.Reader.ReadMIMEHeader`.  The result pairs the parse outcome
(`error` for an io or parse error) with the untouched part: the source
never records a diagnostic in this function. -/
def readHeader (s : List Nat) (p : GoPart) : Except Unit (MimeMap × List Nat) × GoPart :=
  (match rhLoop (s.length + 1) [] s with
   | .error e => .error e
   | .ok (buf, rest) =>
     match readMIMEHeader (buf ++ [13, 10]) with
     | none => .error ()
     | some m => .ok (m, rest), p)

/-- Whether the stream runs out before a blank-line header terminator:
every line that can still be read starts the next header line, and the
stream ends (no line feed left) before any terminator line. -/
def noTermF : Nat → List Nat → Bool
  | 0, _ => true
  | fuel + 1, s =>
    match splitNL s with
    | none => true
    | some (line, rest) =>
      if line = [] ∨ line.headD 0 = 13 then false else noTermF fuel rest

/-- Source `MIMEError` (src/unnamed/part_002 lines 13-18). -/
structure MIMEError where
  Name : String
  Detail : String
  Severe : Bool

/-- Source `MIMEError.String` (src/unnamed/part_002 lines 38-44). -/
def MIMEError.String (e : MIMEError) : String :=
  "[" ++ (if e.Severe then "E" else "W") ++ "] " ++ e.Name ++ ": " ++ e.Detail

/-! Basic lemmas about the byte-string scanning primitives. -/

theorem strIndex_nil (p : Nat) (ps : List Nat) : strIndex [] (p :: ps) = none := by
  simp [strIndex, leadsWith]

theorem strIndex_of_leads (s : List Nat) (p : Nat) (ps : List Nat)
    (h : leadsWith (p :: ps) s = true) : strIndex s (p :: ps) = some 0 := by
  cases s with
  | nil => simp [leadsWith] at h
  | cons c rest => simp [strIndex, h]

theorem strIndex_shift (w s : List Nat) (p : Nat) (ps : List Nat) (hw : ∀ b ∈ w, b ≠ p) :
    strIndex (w ++ s) (p :: ps) = (strIndex s (p :: ps)).map (w.length + ·) := by
  induction w with
  | nil =>
    simp only [List.nil_append, List.length_nil]
    cases strIndex s (p :: ps) <;> simp
  | cons c w ih =>
    have hc : (p = c) = False := by
      simp only [eq_iff_iff, iff_false]
      exact fun h => hw c (by simp) h.symm
    rw [List.cons_append, strIndex]
    have hl : leadsWith (p :: ps) (c :: (w ++ s)) = false := by
      simp [leadsWith, hc]
    rw [hl]
    simp only [Bool.false_eq_true, if_false]
    rw [ih (fun b hb => hw b (by simp [hb]))]
    cases strIndex s (p :: ps) <;> simp <;> omega

theorem takeLenAppend (w s : List Nat) : (w ++ s).take w.length = w := by
  induction w with
  | nil => simp
  | cons c w ih => simp [ih]

theorem dropLenAppend (w s : List Nat) (n : Nat) : (w ++ s).drop (w.length + n) = s.drop n := by
  induction w with
  | nil => simp
  | cons c w ih => simpa [Nat.succ_add] using ih

theorem hasNonWhitespace_all_ws (w : List Nat) (h : ∀ b ∈ w, isWhiteSpaceRune b = true) :
    hasNonWhitespace w = false := by
  induction w with
  | nil => rfl
  | cons b w ih =>
    have hb := h b (by simp)
    simp only [isWhiteSpaceRune, Bool.or_eq_true, decide_eq_true_eq] at hb
    rw [hasNonWhitespace]
    have : (b = 32 || b = 9 || b = 10 || b = 13) = true := by
      rcases hb with ((h1 | h1) | h1) | h1 <;> simp [h1]
    rw [this]
    simp only [if_true]
    exact ih (fun x hx => h x (by simp [hx]))

theorem getLastD_snoc (xs : List Nat) (a d : Nat) : (xs ++ [a]).getLastD d = a := by
  induction xs with
  | nil => rfl
  | cons c xs ih =>
    cases xs with
    | nil => rfl
    | cons y ys => simpa using ih

theorem fieldsAux_nows (s : List Nat) (h : ∀ b ∈ s, isWhiteSpaceRune b = false) :
    ∀ acc, fieldsAux s acc = if acc.reverse ++ s = [] then [] else [acc.reverse ++ s] := by
  induction s with
  | nil =>
    intro acc
    rw [fieldsAux]
    by_cases ha : acc = [] <;> simp [ha]
  | cons c s ih =>
    intro acc
    have hc := h c (by simp)
    rw [fieldsAux, hc]
    simp only [Bool.false_eq_true, if_false]
    rw [ih (fun b hb => h b (by simp [hb])) (c :: acc)]
    simp

theorem fields_single (s : List Nat) (hne : s ≠ []) (h : ∀ b ∈ s, isWhiteSpaceRune b = false) :
    fieldsFunc s = [s] := by
  rw [fieldsFunc, fieldsAux_nows s h []]
  simp [hne]

/-! Step lemmas for the decode loop on symbolic inputs. -/

theorem scanWord_at (ws cs : List Nat) (e : Nat) (t post : List Nat)
    (hws : ∀ b ∈ ws, b ≠ 61) (hcs : ∀ b ∈ cs, b ≠ 63) (ht : ∀ b ∈ t, b ≠ 63) :
    scanWord (ws ++ (61 :: 63 :: (cs ++ 63 :: e :: 63 :: (t ++ 63 :: 61 :: post)))) =
      some (ws.length, cs, e, t, post) := by
  rw [scanWord]
  have h0 : strIndex (ws ++ (61 :: 63 :: (cs ++ 63 :: e :: 63 :: (t ++ 63 :: 61 :: post)))) eqMark
      = some ws.length := by
    rw [show eqMark = (61 : Nat) :: [63] from rfl, strIndex_shift ws _ 61 [63] hws,
      strIndex_of_leads _ 61 [63] (by simp [leadsWith])]
    simp
  rw [h0]
  have hdrop : (ws ++ (61 :: 63 :: (cs ++ 63 :: e :: 63 :: (t ++ 63 :: 61 :: post)))).drop
      (ws.length + 2) = cs ++ 63 :: e :: 63 :: (t ++ 63 :: 61 :: post) := by
    rw [dropLenAppend]
    rfl
  simp only [hdrop]
  have h1 : strIndex (cs ++ 63 :: e :: 63 :: (t ++ 63 :: 61 :: post)) qMark
      = some cs.length := by
    rw [show qMark = (63 : Nat) :: [] from rfl, strIndex_shift cs _ 63 [] hcs,
      strIndex_of_leads _ 63 [] (by simp [leadsWith])]
    simp
  rw [h1]
  have htake : (cs ++ 63 :: e :: 63 :: (t ++ 63 :: 61 :: post)).take cs.length = cs := by
    exact takeLenAppend cs _
  have hdrop1 : (cs ++ 63 :: e :: 63 :: (t ++ 63 :: 61 :: post)).drop (cs.length + 1)
      = e :: 63 :: (t ++ 63 :: 61 :: post) := by
    rw [dropLenAppend]
    rfl
  simp only [htake, hdrop1]
  have hlen : ¬ ((e :: 63 :: (t ++ 63 :: 61 :: post)).length < 4) := by
    simp [List.length_append]
    omega
  rw [if_neg hlen]
  rw [if_neg (show ¬ ((e :: 63 :: (t ++ 63 :: 61 :: post)).getD 1 0 ≠ 63) by simp [List.getD])]
  have h3 : strIndex ((e :: 63 :: (t ++ 63 :: 61 :: post)).drop 2) qeMark = some t.length := by
    rw [show (e :: 63 :: (t ++ 63 :: 61 :: post)).drop 2 = t ++ 63 :: 61 :: post from rfl,
      show qeMark = (63 : Nat) :: [61] from rfl, strIndex_shift t _ 63 [61] ht,
      strIndex_of_leads _ 63 [61] (by simp [leadsWith])]
    simp
  rw [h3]
  have htake3 : ((e :: 63 :: (t ++ 63 :: 61 :: post)).drop 2).take t.length = t := by
    rw [show (e :: 63 :: (t ++ 63 :: 61 :: post)).drop 2 = t ++ 63 :: 61 :: post from rfl]
    exact takeLenAppend t _
  have hdrop3 : ((e :: 63 :: (t ++ 63 :: 61 :: post)).drop 2).drop (t.length + 2) = post := by
    rw [show (e :: 63 :: (t ++ 63 :: 61 :: post)).drop 2 = t ++ 63 :: 61 :: post from rfl,
      dropLenAppend]
    rfl
  simp only [htake3, hdrop3, List.headD]

theorem scanWord_no_marker (h : List Nat) (hno : strIndex h eqMark = none) :
    scanWord h = none := by
  rw [scanWord, hno]

theorem decodeLoop_break (f : Nat) (bw : Bool) (buf h : List Nat)
    (hscan : scanWord h = none) : decodeLoop (f + 1) bw buf h = some (buf ++ h) := by
  rw [decodeLoop, hscan]

theorem decodeLoop_word (f : Nat) (bw : Bool) (buf h : List Nat) (start : Nat)
    (cs : List Nat) (e : Nat) (t rest content out : List Nat)
    (hscan : scanWord h = some (start, cs, e, t, rest))
    (hdec : decodeEnc e t = some content)
    (hconv : wdConvert cs content = some out)
    (hcond : ¬ (0 < start ∧ (bw = false ∨ hasNonWhitespace (h.take start) = true))) :
    decodeLoop (f + 1) bw buf h = decodeLoop f true (buf ++ out) rest := by
  rw [decodeLoop, hscan]
  simp only [hdec, hconv, if_neg hcond]

theorem decodeLoop_skipStep (f : Nat) (bw : Bool) (buf h : List Nat) (start : Nat)
    (cs : List Nat) (e : Nat) (t rest : List Nat)
    (hscan : scanWord h = some (start, cs, e, t, rest))
    (hdec : decodeEnc e t = none) :
    decodeLoop (f + 1) bw buf h
      = decodeLoop f false (buf ++ h.take (start + 2)) (h.drop (start + 2)) := by
  rw [decodeLoop, hscan]
  simp only [hdec]

theorem decodeLoop_convErr (f : Nat) (bw : Bool) (buf h : List Nat) (start : Nat)
    (cs : List Nat) (e : Nat) (t rest content : List Nat)
    (hscan : scanWord h = some (start, cs, e, t, rest))
    (hdec : decodeEnc e t = some content)
    (hconv : wdConvert cs content = none) :
    decodeLoop (f + 1) bw buf h = none := by
  rw [decodeLoop, hscan]
  simp only [hdec, hconv]

theorem scanWord_noterm (cs : List Nat) (e : Nat) (t : List Nat)
    (hcs : ∀ b ∈ cs, b ≠ 63) (hlen : 2 ≤ t.length) (hterm : strIndex t qeMark = none) :
    scanWord (61 :: 63 :: (cs ++ 63 :: e :: 63 :: t)) = none := by
  rw [scanWord]
  have h0 : strIndex (61 :: 63 :: (cs ++ 63 :: e :: 63 :: t)) eqMark = some 0 :=
    strIndex_of_leads _ 61 [63] (by simp [leadsWith])
  rw [h0]
  have h1 : strIndex ((61 :: 63 :: (cs ++ 63 :: e :: 63 :: t)).drop (0 + 2)) qMark
      = some cs.length := by
    rw [show (61 :: 63 :: (cs ++ 63 :: e :: 63 :: t)).drop (0 + 2) = cs ++ 63 :: e :: 63 :: t
          from rfl,
      show qMark = (63 : Nat) :: [] from rfl, strIndex_shift cs _ 63 [] hcs,
      strIndex_of_leads _ 63 [] (by simp [leadsWith])]
    simp
  simp only [h1]
  have hdrop1 : ((61 :: 63 :: (cs ++ 63 :: e :: 63 :: t)).drop (0 + 2)).drop (cs.length + 1)
      = e :: 63 :: t := by
    rw [show (61 :: 63 :: (cs ++ 63 :: e :: 63 :: t)).drop (0 + 2) = cs ++ 63 :: e :: 63 :: t
          from rfl, dropLenAppend]
    rfl
  simp only [hdrop1]
  have hlen4 : ¬ ((e :: 63 :: t).length < 4) := by
    simp
    omega
  rw [if_neg hlen4]
  rw [if_neg (show ¬ ((e :: 63 :: t).getD 1 0 ≠ 63) by simp [List.getD])]
  have h3 : strIndex ((e :: 63 :: t).drop 2) qeMark = none := by
    rw [show (e :: 63 :: t).drop 2 = t from rfl]
    exact hterm
  rw [h3]

theorem goDecodeHeader_split (pre rest : List Nat) (hpre : ∀ b ∈ pre, b ≠ 61)
    (hlead : leadsWith eqMark rest = true) :
    goDecodeHeader (pre ++ rest) = decodeLoop ((pre ++ rest).length + 1) false pre rest := by
  rw [goDecodeHeader]
  have h0 : strIndex (pre ++ rest) eqMark = some pre.length := by
    rw [show eqMark = (61 : Nat) :: [63] from rfl, strIndex_shift pre rest 61 [63] hpre,
      strIndex_of_leads rest 61 [63] hlead]
    simp
  rw [h0]
  have hd : (pre ++ rest).drop pre.length = rest := by
    have := dropLenAppend pre rest 0
    simpa using this
  simp only [takeLenAppend, hd]

theorem strContains_of_leads_mid (pre rest : List Nat) (hpre : ∀ b ∈ pre, b ≠ 61)
    (hlead : leadsWith eqMark rest = true) : strContains (pre ++ rest) eqMark = true := by
  have h0 : strIndex (pre ++ rest) eqMark = some pre.length := by
    rw [show eqMark = (61 : Nat) :: [63] from rfl, strIndex_shift pre rest 61 [63] hpre,
      strIndex_of_leads rest 61 [63] hlead]
    simp
  simp [strContains, h0]

theorem decodeHeader_of_some (input out : List Nat) (hc : strContains input eqMark = true)
    (hg : goDecodeHeader input = some out) : decodeHeader input = out := by
  simp [decodeHeader, hc, hg]

theorem decodeHeader_of_none (input : List Nat) (hg : goDecodeHeader input = none) :
    decodeHeader input = input := by
  rw [decodeHeader]
  by_cases hc : strContains input eqMark = false
  · rw [if_pos hc]
  · rw [if_neg hc, hg]

theorem mkWord_cons (cs : List Nat) (e : Nat) (t post : List Nat) :
    mkWord cs e t ++ post = 61 :: 63 :: (cs ++ 63 :: e :: 63 :: (t ++ 63 :: 61 :: post)) := by
  simp [mkWord]

theorem scanWord_word (cs : List Nat) (e : Nat) (t post : List Nat)
    (hcs : ∀ b ∈ cs, b ≠ 63) (ht : ∀ b ∈ t, b ≠ 63) :
    scanWord (mkWord cs e t ++ post) = some (0, cs, e, t, post) := by
  rw [mkWord_cons]
  have := scanWord_at [] cs e t post (by simp) hcs ht
  simpa using this

theorem whitespace_ne_61 (b : Nat) (h : isWhiteSpaceRune b = true) : b ≠ 61 := by
  simp only [isWhiteSpaceRune, Bool.or_eq_true, decide_eq_true_eq] at h
  rcases h with ((h1 | h1) | h1) | h1 <;> omega

theorem mkWord_leads (cs : List Nat) (e : Nat) (t post : List Nat) :
    leadsWith eqMark (mkWord cs e t ++ post) = true := by
  rw [mkWord_cons]
  simp [leadsWith, eqMark]

theorem mkWord_length (cs : List Nat) (e : Nat) (t : List Nat) :
    (mkWord cs e t).length = cs.length + t.length + 7 := by
  simp [mkWord]
  omega

theorem strIndex_nil_eqMark : strIndex [] eqMark = none := strIndex_nil 61 [63]

theorem goDecode_single (cs : List Nat) (e : Nat) (t content out : List Nat)
    (hcs : ∀ b ∈ cs, b ≠ 63) (ht : ∀ b ∈ t, b ≠ 63)
    (hdec : decodeEnc e t = some content) (hconv : wdConvert cs content = some out) :
    goDecodeHeader (mkWord cs e t) = some out := by
  have hsplit := goDecodeHeader_split [] (mkWord cs e t) (by simp)
    (by simpa using mkWord_leads cs e t [])
  simp only [List.nil_append] at hsplit
  rw [hsplit]
  have hscan : scanWord (mkWord cs e t) = some (0, cs, e, t, []) := by
    have := scanWord_word cs e t [] hcs ht
    simpa using this
  rw [decodeLoop_word _ false [] _ 0 cs e t [] content out hscan hdec hconv (by simp)]
  obtain ⟨k, hk⟩ : ∃ k, (mkWord cs e t).length = k + 1 :=
    ⟨(mkWord cs e t).length - 1, by rw [mkWord_length]; omega⟩
  rw [hk, decodeLoop_break _ true _ [] (scanWord_no_marker [] strIndex_nil_eqMark)]
  simp

theorem decodeHeader_word (cs : List Nat) (e : Nat) (t content out : List Nat)
    (hcs : ∀ b ∈ cs, b ≠ 63) (ht : ∀ b ∈ t, b ≠ 63)
    (hdec : decodeEnc e t = some content) (hconv : wdConvert cs content = some out) :
    decodeHeader (mkWord cs e t) = out := by
  refine decodeHeader_of_some _ _ ?_ (goDecode_single cs e t content out hcs ht hdec hconv)
  have := strContains_of_leads_mid [] (mkWord cs e t) (by simp)
    (by simpa using mkWord_leads cs e t [])
  simpa using this

theorem decodeHeader_convErr (cs : List Nat) (e : Nat) (t content : List Nat)
    (hcs : ∀ b ∈ cs, b ≠ 63) (ht : ∀ b ∈ t, b ≠ 63)
    (hdec : decodeEnc e t = some content) (hconv : wdConvert cs content = none) :
    decodeHeader (mkWord cs e t) = mkWord cs e t := by
  apply decodeHeader_of_none
  have hsplit := goDecodeHeader_split [] (mkWord cs e t) (by simp)
    (by simpa using mkWord_leads cs e t [])
  simp only [List.nil_append] at hsplit
  rw [hsplit]
  have hscan : scanWord (mkWord cs e t) = some (0, cs, e, t, []) := by
    have := scanWord_word cs e t [] hcs ht
    simpa using this
  exact decodeLoop_convErr _ false [] _ 0 cs e t [] content hscan hdec hconv

theorem decodeHeader_skip (pre cs : List Nat) (e : Nat) (t post : List Nat)
    (hpre : ∀ b ∈ pre, b ≠ 61) (hcs : ∀ b ∈ cs, b ≠ 63) (ht : ∀ b ∈ t, b ≠ 63)
    (hdec : decodeEnc e t = none)
    (hrest : strIndex (cs ++ 63 :: e :: 63 :: (t ++ 63 :: 61 :: post)) eqMark = none) :
    decodeHeader (pre ++ (mkWord cs e t ++ post)) = pre ++ (mkWord cs e t ++ post) := by
  apply decodeHeader_of_some
  · exact strContains_of_leads_mid pre _ hpre (mkWord_leads cs e t post)
  rw [goDecodeHeader_split pre _ hpre (mkWord_leads cs e t post)]
  rw [decodeLoop_skipStep _ false pre _ 0 cs e t post (scanWord_word cs e t post hcs ht) hdec]
  have htk : (mkWord cs e t ++ post).take (0 + 2) = [61, 63] := by
    rw [mkWord_cons]
    rfl
  have hdr : (mkWord cs e t ++ post).drop (0 + 2)
      = cs ++ 63 :: e :: 63 :: (t ++ 63 :: 61 :: post) := by
    rw [mkWord_cons]
    rfl
  rw [htk, hdr]
  obtain ⟨k, hk⟩ : ∃ k, (pre ++ (mkWord cs e t ++ post)).length = k + 1 :=
    ⟨(pre ++ (mkWord cs e t ++ post)).length - 1, by simp [mkWord_length]; omega⟩
  rw [hk, decodeLoop_break _ false _ _ (scanWord_no_marker _ hrest)]
  rw [mkWord_cons]
  simp

theorem decodeHeader_noterm (cs : List Nat) (e : Nat) (t : List Nat)
    (hcs : ∀ b ∈ cs, b ≠ 63) (hlen : 2 ≤ t.length) (hterm : strIndex t qeMark = none) :
    decodeHeader (61 :: 63 :: (cs ++ 63 :: e :: 63 :: t))
      = 61 :: 63 :: (cs ++ 63 :: e :: 63 :: t) := by
  apply decodeHeader_of_some
  · have := strContains_of_leads_mid [] (61 :: 63 :: (cs ++ 63 :: e :: 63 :: t)) (by simp)
      (by simp [leadsWith, eqMark])
    simpa using this
  have hsplit := goDecodeHeader_split [] (61 :: 63 :: (cs ++ 63 :: e :: 63 :: t)) (by simp)
    (by simp [leadsWith, eqMark])
  simp only [List.nil_append] at hsplit
  rw [hsplit, decodeLoop_break _ false [] _ (scanWord_noterm cs e t hcs hlen hterm)]
  simp

/-! Lemmas about charset conversion and the Q decoding. -/

theorem equalFold_map (a b : List Nat) (h : equalFold a b = true) :
    a.map foldByte = b.map foldByte := by
  induction a generalizing b with
  | nil => cases b with
    | nil => rfl
    | cons x xs => simp [equalFold] at h
  | cons x xs ih =>
    cases b with
    | nil => simp [equalFold] at h
    | cons y ys =>
      simp only [equalFold, Bool.and_eq_true, decide_eq_true_eq] at h
      simp [h.1, ih ys h.2]

theorem equalFold_ctrl_false (w cs : List Nat) (hctrl : 13 ∈ cs ∨ 10 ∈ cs)
    (hw : ¬ (13 ∈ w.map foldByte) ∧ ¬ (10 ∈ w.map foldByte)) : equalFold w cs = false := by
  by_contra hne
  have heq : equalFold w cs = true := by
    cases hfold : equalFold w cs
    · exact absurd hfold hne
    · rfl
  have hmap := equalFold_map w cs heq
  rcases hctrl with hc | hc
  · have : (13 : Nat) ∈ cs.map foldByte := by
      have : foldByte 13 = 13 := by decide
      rw [← this]
      exact List.mem_map_of_mem foldByte hc
    rw [← hmap] at this
    exact hw.1 this
  · have : (10 : Nat) ∈ cs.map foldByte := by
      have : foldByte 10 = 10 := by decide
      rw [← this]
      exact List.mem_map_of_mem foldByte hc
    rw [← hmap] at this
    exact hw.2 this

theorem newCharsetReader_ctrl (cs content : List Nat) (hctrl : 13 ∈ cs ∨ 10 ∈ cs) :
    newCharsetReader (toLowerB cs) content = none := by
  have hmem : (13 : Nat) ∈ toLowerB cs ∨ (10 : Nat) ∈ toLowerB cs := by
    rcases hctrl with hc | hc
    · exact Or.inl (by simpa [toLowerB, show foldByte 13 = 13 from by decide]
        using List.mem_map_of_mem foldByte hc)
    · exact Or.inr (by simpa [toLowerB, show foldByte 10 = 10 from by decide]
        using List.mem_map_of_mem foldByte hc)
  rw [newCharsetReader]
  have h1 : ¬ (toLowerB cs = str "big5") := by
    intro he
    rw [he] at hmem
    rcases hmem with hm | hm <;> simp [str, utf8Bytes] at hm
  have h2 : ¬ (toLowerB cs = str "iso-8859-2") := by
    intro he
    rw [he] at hmem
    rcases hmem with hm | hm <;> simp [str, utf8Bytes] at hm
  rw [if_neg h1, if_neg h2]

theorem wdConvert_ctrl (cs content : List Nat) (hctrl : 13 ∈ cs ∨ 10 ∈ cs) :
    wdConvert cs content = none := by
  rw [wdConvert]
  rw [equalFold_ctrl_false (str "utf-8") cs hctrl (by decide)]
  rw [equalFold_ctrl_false (str "iso-8859-1") cs hctrl (by decide)]
  rw [equalFold_ctrl_false (str "us-ascii") cs hctrl (by decide)]
  simp only [Bool.false_eq_true, if_false]
  exact newCharsetReader_ctrl cs content hctrl

theorem qDecode_simple (t : List Nat) (h : ∀ c ∈ t, (32 ≤ c ∧ c ≤ 126) ∧ c ≠ 61) :
    qDecode t = some (t.map (fun c => if c = 95 then 32 else c)) := by
  induction t with
  | nil => rfl
  | cons c rest ih =>
    have hc := h c (by simp)
    have hrest := ih (fun x hx => h x (by simp [hx]))
    by_cases h95 : c = 95
    · subst h95
      rw [qDecode.eq_def]
      simp only [if_pos rfl, hrest]
      simp
    · rw [qDecode.eq_def]
      simp only [if_neg h95, if_neg hc.2, if_pos (Or.inl hc.1), hrest]
      simp [h95]

theorem wdConvert_utf8 (content : List Nat) : wdConvert (str "UTF-8") content = some content := by
  rfl

theorem wdConvert_usascii (content : List Nat) (h : ∀ b ∈ content, b < 128) :
    wdConvert (str "US-ASCII") content = some content := by
  rw [wdConvert]
  rw [show equalFold (str "utf-8") (str "US-ASCII") = false from by decide]
  rw [show equalFold (str "iso-8859-1") (str "US-ASCII") = false from by decide]
  rw [show equalFold (str "us-ascii") (str "US-ASCII") = true from by decide]
  simp only [Bool.false_eq_true, if_false, if_true]
  congr 1
  induction content with
  | nil => rfl
  | cons b rest ih =>
    have hb := h b (by simp)
    have := ih (fun x hx => h x (by simp [hx]))
    simp only [List.foldr_cons, this]
    rw [if_neg (by omega)]
    rfl

theorem decodeLoop_gap (f : Nat) (buf ws cs : List Nat) (e : Nat)
    (t post content out : List Nat)
    (hwsne : ws ≠ []) (hws : ∀ b ∈ ws, isWhiteSpaceRune b = true)
    (hcs : ∀ b ∈ cs, b ≠ 63) (ht : ∀ b ∈ t, b ≠ 63)
    (hdec : decodeEnc e t = some content) (hconv : wdConvert cs content = some out) :
    decodeLoop (f + 1) true buf (ws ++ (mkWord cs e t ++ post))
      = decodeLoop f true (buf ++ out) post := by
  apply decodeLoop_word _ _ _ _ ws.length cs e t post content out
  · rw [mkWord_cons]
    exact scanWord_at ws cs e t post (fun b hb => whitespace_ne_61 b (hws b hb)) hcs ht
  · exact hdec
  · exact hconv
  · intro hcontra
    rcases hcontra.2 with hor | hor
    · simp at hor
    · rw [takeLenAppend, hasNonWhitespace_all_ws ws hws] at hor
      simp at hor

theorem printable_not_ws (b : Nat) (h1 : 32 < b) (h2 : b ≤ 126) : isWhiteSpaceRune b = false := by
  simp only [isWhiteSpaceRune]
  simp only [Bool.or_eq_false_iff, decide_eq_false_iff_not]
  omega

theorem needsEncoding_false_of (w : List Nat) (h : ∀ b ∈ w, 32 ≤ b ∧ b ≤ 126) :
    needsEncoding w = false := by
  induction w with
  | nil => rfl
  | cons b rest ih =>
    have hb := h b (by simp)
    rw [needsEncoding, if_neg (by omega)]
    exact ih (fun x hx => h x (by simp [hx]))

/-- Claim C8: a value with no `=?` marker passes through both `decodeHeader`
and `decodeToUTF8Base64Header` unchanged: both begin with the
`strings.Contains(input, "=?")` guard. -/
theorem claim_C8 (input : List Nat) (h : strContains input eqMark = false) :
    decodeHeader input = input ∧ decodeToUTF8Base64Header input = input := by
  constructor
  · rw [decodeHeader, if_pos h]
  · rw [decodeToUTF8Base64Header, if_pos h]

/-- Witness for C8 at the concrete input of the repository's test table. -/
theorem claim_C8_witness :
    strContains (str "no encoding") eqMark = false ∧
    decodeHeader (str "no encoding") = str "no encoding" ∧
    decodeToUTF8Base64Header (str "no encoding") = str "no encoding" :=
  ⟨by decide, (claim_C8 (str "no encoding") (by decide)).1,
    (claim_C8 (str "no encoding") (by decide)).2⟩

/-- Claim C7: a well-formed encoded-word decodes, with the Q encoding
mapping underscore to space: stated for every Q text over the plain
printable alphabet (no `=` escape, no `?`), together with the two concrete
vectors of the repository's tests. -/
theorem claim_C7 :
    (∀ t : List Nat, (∀ c ∈ t, (32 ≤ c ∧ c ≤ 126) ∧ c ≠ 61 ∧ c ≠ 63) →
      decodeHeader (mkWord (str "US-ASCII") 81 t)
        = t.map (fun c => if c = 95 then 32 else c)) ∧
    decodeHeader (str "=?US-ASCII?Q?Keith_Moore?=") = str "Keith Moore" ∧
    decodeHeader (str "=?US-ASCII?B?SGVsbG8gV29ybGQ=?=") = str "Hello World" := by
  refine ⟨?_, by decide, by decide⟩
  intro t h
  apply decodeHeader_word (str "US-ASCII") 81 t (t.map (fun c => if c = 95 then 32 else c))
  · decide
  · exact fun b hb => (h b hb).2.2
  · rw [decodeEnc, if_neg (by omega), if_pos (by omega)]
    exact qDecode_simple t (fun c hc => ⟨(h c hc).1, (h c hc).2.1⟩)
  · apply wdConvert_usascii
    intro b hb
    rcases List.mem_map.mp hb with ⟨c, hc, hcb⟩
    have := (h c hc).1
    by_cases h95 : c = 95
    · simp [h95] at hcb
      omega
    · rw [if_neg h95] at hcb
      omega

/-- Witness for C7: the general part applied at the text of the
`Keith_Moore` vector. -/
theorem claim_C7_witness :
    (∀ c ∈ str "Keith_Moore", (32 ≤ c ∧ c ≤ 126) ∧ c ≠ 61 ∧ c ≠ 63) ∧
    decodeHeader (mkWord (str "US-ASCII") 81 (str "Keith_Moore"))
      = (str "Keith_Moore").map (fun c => if c = 95 then 32 else c) :=
  ⟨by decide, claim_C7.1 (str "Keith_Moore") (by decide)⟩

/-- Claim C2: a single encoded-word is passed through unchanged, with no
error surfaced, when (a) its charset holds a carriage return or line feed,
(b) its encoding discriminator is none of the recognized letters, (c) its
closing `?=` is absent or malformed, or (d) its charset is unknown to the
conversion step; finally the concrete malformed-terminator vector of the
repository's tests. -/
theorem claim_C2 :
    (∀ cs t content : List Nat, ∀ e : Nat,
      (13 ∈ cs ∨ 10 ∈ cs) → (∀ b ∈ cs, b ≠ 63) → (∀ b ∈ t, b ≠ 63) →
      decodeEnc e t = some content →
      decodeHeader (mkWord cs e t) = mkWord cs e t) ∧
    (∀ cs t : List Nat, ∀ e : Nat,
      (∀ b ∈ cs, b ≠ 63) → (∀ b ∈ t, b ≠ 63) →
      e ≠ 66 → e ≠ 98 → e ≠ 81 → e ≠ 113 →
      strIndex (cs ++ 63 :: e :: 63 :: (t ++ 63 :: 61 :: [])) eqMark = none →
      decodeHeader (mkWord cs e t) = mkWord cs e t) ∧
    (∀ cs t : List Nat, ∀ e : Nat,
      (∀ b ∈ cs, b ≠ 63) → 2 ≤ t.length → strIndex t qeMark = none →
      decodeHeader (61 :: 63 :: (cs ++ 63 :: e :: 63 :: t))
        = 61 :: 63 :: (cs ++ 63 :: e :: 63 :: t)) ∧
    (∀ cs t content : List Nat, ∀ e : Nat,
      (∀ b ∈ cs, b ≠ 63) → (∀ b ∈ t, b ≠ 63) →
      decodeEnc e t = some content → wdConvert cs content = none →
      decodeHeader (mkWord cs e t) = mkWord cs e t) ∧
    decodeHeader (str "=?US-ASCII?Q?Keith_Moore?!") = str "=?US-ASCII?Q?Keith_Moore?!" := by
  refine ⟨?_, ?_, ?_, ?_, by decide⟩
  · intro cs t content e hctrl hcs ht hdec
    exact decodeHeader_convErr cs e t content hcs ht hdec (wdConvert_ctrl cs content hctrl)
  · intro cs t e hcs ht h66 h98 h81 h113 hrest
    have := decodeHeader_skip [] cs e t [] (by simp) hcs ht
      (by rw [decodeEnc, if_neg (by omega), if_neg (by omega)]) hrest
    simpa using this
  · intro cs t e hcs hlen hterm
    exact decodeHeader_noterm cs e t hcs hlen hterm
  · intro cs t content e hcs ht hdec hconv
    exact decodeHeader_convErr cs e t content hcs ht hdec hconv

/-- Witness for C2: each general part applied at a concrete vector — the
newline-in-charset, control-discriminator and unknown-charset vectors. -/
theorem claim_C2_witness :
    ((10 : Nat) ∈ str "US\nASCII" ∨ (13 : Nat) ∈ str "US\nASCII") ∧
    decodeHeader (mkWord (str "US\nASCII") 81 (str "Keith_Moore"))
      = mkWord (str "US\nASCII") 81 (str "Keith_Moore")  ∧
    decodeHeader (mkWord (str "US-ASCII") 13 (str "Keith_Moore"))
      = mkWord (str "US-ASCII") 13 (str "Keith_Moore") ∧
    decodeHeader (61 :: 63 :: (str "US-ASCII" ++ 63 :: 81 :: 63 :: str "Keith_Moore?!"))
      = 61 :: 63 :: (str "US-ASCII" ++ 63 :: 81 :: 63 :: str "Keith_Moore?!") ∧
    decodeHeader (mkWord (str "x-unknown") 81 [97]) = mkWord (str "x-unknown") 81 [97] := by
  refine ⟨by decide, ?_, ?_, ?_, ?_⟩
  · exact claim_C2.1 (str "US\nASCII") (str "Keith_Moore") (str "Keith Moore") 81
      (by decide) (by decide) (by decide) (by decide)
  · exact claim_C2.2.1 (str "US-ASCII") (str "Keith_Moore") 13
      (by decide) (by decide) (by decide) (by decide) (by decide) (by decide) (by decide)
  · exact claim_C2.2.2.1 (str "US-ASCII") (str "Keith_Moore?!") 81
      (by decide) (by decide) (by decide)
  · exact claim_C2.2.2.2.1 (str "x-unknown") [97] [97] 81
      (by decide) (by decide) (by decide) (by decide)

/-- Claim C6: a malformed encoded-word never aborts either function (both
are total), and the affected span comes out as its raw text: `decodeHeader`
leaves a value holding an undecodable word unchanged between arbitrary
literal context, and `decodeToUTF8Base64Header` re-emits such a token
verbatim. -/
theorem claim_C6 :
    (∀ pre cs t post : List Nat, ∀ e : Nat,
      (∀ b ∈ pre, b ≠ 61) → (∀ b ∈ cs, b ≠ 63) → (∀ b ∈ t, b ≠ 63) →
      decodeEnc e t = none →
      strIndex (cs ++ 63 :: e :: 63 :: (t ++ 63 :: 61 :: post)) eqMark = none →
      decodeHeader (pre ++ (mkWord cs e t ++ post)) = pre ++ (mkWord cs e t ++ post)) ∧
    (∀ cs t : List Nat, ∀ e : Nat,
      (∀ b ∈ mkWord cs e t, 32 < b ∧ b ≤ 126) →
      (∀ b ∈ cs, b ≠ 63) → (∀ b ∈ t, b ≠ 63) →
      decodeEnc e t = none →
      strIndex (cs ++ 63 :: e :: 63 :: (t ++ 63 :: 61 :: [])) eqMark = none →
      decodeToUTF8Base64Header (mkWord cs e t) = mkWord cs e t) := by
  constructor
  · intro pre cs t post e hpre hcs ht hdec hrest
    exact decodeHeader_skip pre cs e t post hpre hcs ht hdec hrest
  · intro cs t e hbyte hcs ht hdec hrest
    have hdh : decodeHeader (mkWord cs e t) = mkWord cs e t := by
      have := decodeHeader_skip [] cs e t [] (by simp) hcs ht hdec hrest
      simpa using this
    have hcont : strContains (mkWord cs e t) eqMark = true := by
      have := strContains_of_leads_mid [] (mkWord cs e t) (by simp)
        (by simpa using mkWord_leads cs e t [])
      simpa using this
    rw [decodeToUTF8Base64Header, if_neg (by simp [hcont])]
    have hfields : fieldsFunc (mkWord cs e t) = [mkWord cs e t] := by
      apply fields_single
      · simp [mkWord]
      · exact fun b hb => printable_not_ws b (hbyte b hb).1 (hbyte b hb).2
    rw [hfields]
    show joinSpace [reencodeToken (mkWord cs e t)] = mkWord cs e t
    have hlen : 4 < (mkWord cs e t).length := by
      rw [mkWord_length]
      omega
    have hhead : (mkWord cs e t).headD 0 = 61 := by
      simp [mkWord]
    have hlast : (mkWord cs e t).getLastD 0 = 61 := by
      have hsplit : mkWord cs e t = ([61, 63] ++ cs ++ [63, e, 63] ++ t ++ [63]) ++ [61] := by
        simp [mkWord]
      rw [hsplit, getLastD_snoc]
    rw [reencodeToken, if_pos ⟨hlen, hcont⟩]
    simp only [hhead]
    norm_num
    have hlast' : (mkWord cs e t).getLast?.getD 0 = 61 := by
      rw [← List.getLastD_eq_getLast?]
      exact hlast
    rw [hlast']
    norm_num
    rw [hdh, bEncode,
      if_pos (needsEncoding_false_of _
        (fun b hb => ⟨by have := (hbyte b hb).1; omega, (hbyte b hb).2⟩))]
    simp [joinSpace]

/-- Witness for C6: both parts at a concrete word with an unrecognized
discriminator, inside a parenthesized comment for the first part. -/
theorem claim_C6_witness :
    decodeHeader ([40] ++ (mkWord (str "bad") 90 [97] ++ [41]))
      = [40] ++ (mkWord (str "bad") 90 [97] ++ [41]) ∧
    decodeToUTF8Base64Header (mkWord (str "bad") 90 [97]) = mkWord (str "bad") 90 [97] := by
  constructor
  · exact claim_C6.1 [40] (str "bad") [97] [41] 90
      (by decide) (by decide) (by decide) (by decide) (by decide)
  · exact claim_C6.2 (str "bad") [97] 90
      (by decide) (by decide) (by decide) (by decide) (by decide)

theorem run_adjacent (ws : List Nat) (hne : ws ≠ [])
    (hws : ∀ b ∈ ws, isWhiteSpaceRune b = true) :
    ∀ f : Nat, 3 ≤ f →
      decodeLoop f false [40]
          (mkWord (str "ISO-8859-1") 81 [97]
            ++ (ws ++ (mkWord (str "ISO-8859-1") 81 [98] ++ [41])))
        = some (str "(ab)") := by
  intro f hf
  obtain ⟨f1, rfl⟩ : ∃ f1, f = f1 + 1 := ⟨f - 1, by omega⟩
  rw [decodeLoop_word f1 false [40] _ 0 (str "ISO-8859-1") 81 [97]
    (ws ++ (mkWord (str "ISO-8859-1") 81 [98] ++ [41])) [97] [97]
    (scanWord_word (str "ISO-8859-1") 81 [97] _ (by decide) (by decide))
    (by decide) (by decide) (by simp)]
  obtain ⟨f2, rfl⟩ : ∃ f2, f1 = f2 + 1 := ⟨f1 - 1, by omega⟩
  rw [decodeLoop_gap f2 ([40] ++ [97]) ws (str "ISO-8859-1") 81 [98] [41] [98] [98]
    hne hws (by decide) (by decide) (by decide) (by decide)]
  obtain ⟨f3, rfl⟩ : ∃ f3, f2 = f3 + 1 := ⟨f2 - 1, by omega⟩
  rw [decodeLoop_break f3 true _ [41] (scanWord_no_marker [41] (by decide))]
  decide

/-- Claim C5: whitespace standing alone between two encoded-words is
elided (stated for every non-empty run of folding whitespace between the
two words of the repository's adjacency tests), while whitespace between
an encoded-word and literal text is preserved. -/
theorem claim_C5 :
    (∀ ws : List Nat, ws ≠ [] → (∀ b ∈ ws, isWhiteSpaceRune b = true) →
      decodeHeader (str "(=?ISO-8859-1?Q?a?=" ++ ws ++ str "=?ISO-8859-1?Q?b?=)")
        = str "(ab)") ∧
    decodeHeader (str "(=?ISO-8859-1?Q?a?= b)") = str "(a b)" := by
  refine ⟨?_, by decide⟩
  intro ws hne hws
  have e1 : str "(=?ISO-8859-1?Q?a?=" ++ ws ++ str "=?ISO-8859-1?Q?b?=)"
      = [40] ++ (mkWord (str "ISO-8859-1") 81 [97]
          ++ (ws ++ (mkWord (str "ISO-8859-1") 81 [98] ++ [41]))) := by
    rw [show str "(=?ISO-8859-1?Q?a?=" = [40] ++ mkWord (str "ISO-8859-1") 81 [97]
        from by decide,
      show str "=?ISO-8859-1?Q?b?=)" = mkWord (str "ISO-8859-1") 81 [98] ++ [41]
        from by decide]
    simp
  rw [e1]
  apply decodeHeader_of_some
  · exact strContains_of_leads_mid [40] _ (by decide) (mkWord_leads _ _ _ _)
  rw [goDecodeHeader_split [40] _ (by decide) (mkWord_leads _ _ _ _)]
  apply run_adjacent ws hne hws
  simp [mkWord]

/-- Witness for C5: the general part at a single space, at two spaces, and
at a CRLF line fold, reproducing the repository's three adjacency vectors. -/
theorem claim_C5_witness :
    decodeHeader (str "(=?ISO-8859-1?Q?a?=" ++ [32] ++ str "=?ISO-8859-1?Q?b?=)")
      = str "(ab)" ∧
    decodeHeader (str "(=?ISO-8859-1?Q?a?=" ++ [32, 32] ++ str "=?ISO-8859-1?Q?b?=)")
      = str "(ab)" ∧
    decodeHeader (str "(=?ISO-8859-1?Q?a?=" ++ [13, 10, 32, 32] ++ str "=?ISO-8859-1?Q?b?=)")
      = str "(ab)" :=
  ⟨claim_C5.1 [32] (by decide) (by decide),
   claim_C5.1 [32, 32] (by decide) (by decide),
   claim_C5.1 [13, 10, 32, 32] (by decide) (by decide)⟩

/-! Base64 lemmas: alphabet facts, the encode/decode round trip, and byte
bounds for decoder and converter outputs. -/

theorem b64_val_chr : ∀ x < 64, b64Val (b64Chr x) = some x := by decide

theorem b64Chr_facts : ∀ x < 64,
    b64Chr x ≠ 61 ∧ b64Chr x ≠ 63 ∧ b64Chr x ≠ 13 ∧ b64Chr x ≠ 10 := by decide

theorem b64encode_mem (s : List Nat) :
    ∀ b ∈ b64encode s, b = 61 ∨ ∃ x, x < 64 ∧ b = b64Chr x := by
  induction s using b64encode.induct with
  | case1 b1 b2 b3 rest ih =>
    intro b hb
    rw [b64encode] at hb
    simp only [List.mem_cons] at hb
    rcases hb with h | h | h | h | h
    · exact Or.inr ⟨_, by omega, h⟩
    · exact Or.inr ⟨_, by omega, h⟩
    · exact Or.inr ⟨_, by omega, h⟩
    · exact Or.inr ⟨_, by omega, h⟩
    · exact ih b h
  | case2 b1 b2 =>
    intro b hb
    rw [b64encode] at hb
    simp only [List.mem_cons, List.not_mem_nil, or_false] at hb
    rcases hb with h | h | h | h
    · exact Or.inr ⟨_, by omega, h⟩
    · exact Or.inr ⟨_, by omega, h⟩
    · exact Or.inr ⟨_, by omega, h⟩
    · exact Or.inl h
  | case3 b1 =>
    intro b hb
    rw [b64encode] at hb
    simp only [List.mem_cons, List.not_mem_nil, or_false] at hb
    rcases hb with h | h | h | h
    · exact Or.inr ⟨_, by omega, h⟩
    · exact Or.inr ⟨_, by omega, h⟩
    · exact Or.inl h
    · exact Or.inl h
  | case4 =>
    intro b hb
    simp [b64encode] at hb

theorem b64encode_ne (s : List Nat) :
    ∀ b ∈ b64encode s, b ≠ 63 ∧ b ≠ 13 ∧ b ≠ 10 := by
  intro b hb
  rcases b64encode_mem s b hb with h | ⟨x, hx, rfl⟩
  · omega
  · have := b64Chr_facts x hx
    exact ⟨this.2.1, this.2.2.1, this.2.2.2⟩

theorem b64_roundtrip (s : List Nat) (h : ∀ b ∈ s, b < 256) :
    b64quanta (b64encode s) = some s := by
  induction s using b64encode.induct with
  | case1 b1 b2 b3 rest ih =>
    have h1 : b1 < 256 := h b1 (by simp)
    have h2 : b2 < 256 := h b2 (by simp)
    have h3 : b3 < 256 := h b3 (by simp)
    have hm1 : b1 % 256 = b1 := Nat.mod_eq_of_lt h1
    have hm2 : b2 % 256 = b2 := Nat.mod_eq_of_lt h2
    have hm3 : b3 % 256 = b3 := Nat.mod_eq_of_lt h3
    rw [b64encode]
    simp only [hm1, hm2, hm3]
    rw [b64quanta]
    rw [b64_val_chr _ (by omega), b64_val_chr _ (by omega)]
    simp only []
    rw [if_neg (b64Chr_facts ((b1 * 65536 + b2 * 256 + b3) / 64 % 64) (by omega)).1]
    rw [b64_val_chr _ (by omega)]
    simp only []
    rw [if_neg (b64Chr_facts ((b1 * 65536 + b2 * 256 + b3) % 64) (by omega)).1]
    rw [b64_val_chr _ (by omega)]
    rw [ih (fun b hb => h b (by simp [hb]))]
    simp only [Option.map_some', Option.some.injEq, List.cons.injEq]
    refine ⟨by omega, by omega, by omega, trivial⟩
  | case2 b1 b2 =>
    have h1 : b1 < 256 := h b1 (by simp)
    have h2 : b2 < 256 := h b2 (by simp)
    have hm1 : b1 % 256 = b1 := Nat.mod_eq_of_lt h1
    have hm2 : b2 % 256 = b2 := Nat.mod_eq_of_lt h2
    rw [b64encode]
    simp only [hm1, hm2]
    rw [b64quanta]
    rw [b64_val_chr _ (by omega), b64_val_chr _ (by omega)]
    simp only []
    rw [if_neg (b64Chr_facts ((b1 * 65536 + b2 * 256) / 64 % 64) (by omega)).1]
    rw [b64_val_chr _ (by omega)]
    simp only [if_true, Option.some.injEq, List.cons.injEq, and_true]
    exact ⟨by omega, by omega⟩
  | case3 b1 =>
    have h1 : b1 < 256 := h b1 (by simp)
    have hm1 : b1 % 256 = b1 := Nat.mod_eq_of_lt h1
    rw [b64encode]
    simp only [hm1]
    rw [b64quanta]
    rw [b64_val_chr _ (by omega), b64_val_chr _ (by omega)]
    simp only [if_true, and_self, Option.some.injEq, List.cons.injEq, and_true]
    omega
  | case4 => rfl

theorem b64decode_encode (s : List Nat) (h : ∀ b ∈ s, b < 256) :
    b64decode (b64encode s) = some s := by
  rw [b64decode]
  have hf : (b64encode s).filter (fun b => b ≠ 13 ∧ b ≠ 10) = b64encode s := by
    rw [List.filter_eq_self]
    intro b hb
    have := b64encode_ne s b hb
    simp [this.2.1, this.2.2]
  rw [hf]
  exact b64_roundtrip s h

theorem fromHex_lt (a x : Nat) (h : fromHex a = some x) : x < 16 := by
  rw [fromHex] at h
  split_ifs at h <;> simp only [Option.some.injEq] at h <;> omega

theorem readHexByte_lt (a b x : Nat) (h : readHexByte a b = some x) : x < 256 := by
  rw [readHexByte] at h
  cases ha : fromHex a with
  | none => rw [ha] at h; simp at h
  | some va =>
    cases hb : fromHex b with
    | none => rw [ha, hb] at h; simp at h
    | some vb =>
      rw [ha, hb] at h
      simp only [Option.some.injEq] at h
      have := fromHex_lt a va ha
      have := fromHex_lt b vb hb
      omega

theorem qDecode_lt256 (t out : List Nat) (h : qDecode t = some out) : ∀ b ∈ out, b < 256 := by
  induction t using qDecode.induct generalizing out with
  | case1 =>
    have hz : qDecode [] = some [] := rfl
    rw [hz] at h
    injection h with h
    intro b hb
    rw [← h] at hb
    simp at hb
  | case2 rest ih =>
    cases hq : qDecode rest with
    | none =>
      have hz : qDecode (95 :: rest) = none := by
        rw [qDecode.eq_def]
        simp [hq]
      rw [hz] at h
      simp at h
    | some o =>
      have hz : qDecode (95 :: rest) = some (32 :: o) := by
        rw [qDecode.eq_def]
        simp [hq]
      rw [hz] at h
      injection h with h
      intro b hb
      rw [← h] at hb
      rcases List.mem_cons.mp hb with rfl | hbo
      · omega
      · exact ih o hq b hbo
  | case3 h1 h2 rest' b hbx hne ih =>
    cases hq : qDecode rest' with
    | none =>
      have hz : qDecode (61 :: h1 :: h2 :: rest') = none := by
        rw [qDecode.eq_def]
        simp [hbx, hq]
      rw [hz] at h
      simp at h
    | some o =>
      have hz : qDecode (61 :: h1 :: h2 :: rest') = some (b :: o) := by
        rw [qDecode.eq_def]
        simp [hbx, hq]
      rw [hz] at h
      injection h with h
      intro x hx
      rw [← h] at hx
      rcases List.mem_cons.mp hx with rfl | hxo
      · exact readHexByte_lt h1 h2 x hbx
      · exact ih o hq x hxo
  | case4 h1 h2 rest' hbx hne =>
    have hz : qDecode (61 :: h1 :: h2 :: rest') = none := by
      rw [qDecode.eq_def]
      simp [hbx]
    rw [hz] at h
    simp at h
  | case5 rest hshape hne =>
    rcases rest with _ | ⟨a, as⟩
    · have hz : qDecode [61] = none := by rfl
      rw [hz] at h
      simp at h
    · rcases as with _ | ⟨a2, as2⟩
      · have hz : qDecode [61, a] = none := by
          rw [qDecode.eq_def]
          simp
        rw [hz] at h
        simp at h
      · exact absurd rfl (fun he => hshape a a2 as2 he)
  | case6 b rest hne95 hne61 hok ih =>
    cases hq : qDecode rest with
    | none =>
      have hz : qDecode (b :: rest) = none := by
        rw [qDecode.eq_def]
        simp [hq, if_neg hne95, if_neg hne61, if_pos hok]
      rw [hz] at h
      simp at h
    | some o =>
      have hz : qDecode (b :: rest) = some (b :: o) := by
        rw [qDecode.eq_def]
        simp [hq, if_neg hne95, if_neg hne61, if_pos hok]
      rw [hz] at h
      injection h with h
      intro x hx
      rw [← h] at hx
      rcases List.mem_cons.mp hx with rfl | hxo
      · rcases hok with hp | h10 | h13 | h9 <;> omega
      · exact ih o hq x hxo
  | case7 b rest hne95 hne61 hbad =>
    have hz : qDecode (b :: rest) = none := by
      rw [qDecode.eq_def]
      simp [if_neg hne95, if_neg hne61, if_neg hbad]
    rw [hz] at h
    simp at h

theorem b64Val_lt (b x : Nat) (h : b64Val b = some x) : x < 64 := by
  rw [b64Val] at h
  split_ifs at h <;> simp only [Option.some.injEq] at h <;> omega

theorem b64quanta_lt256_fuel : ∀ (n : Nat) (s out : List Nat), s.length ≤ n →
    b64quanta s = some out → ∀ b ∈ out, b < 256 := by
  intro n
  induction n with
  | zero =>
    intro s out hl h
    have hs : s = [] := List.length_eq_zero.mp (by omega)
    subst hs
    have hz : b64quanta [] = some [] := rfl
    rw [hz] at h
    injection h with h
    intro b hb
    rw [← h] at hb
    simp at hb
  | succ n ih =>
    intro s out hl h
    rcases s with _ | ⟨c1, _ | ⟨c2, _ | ⟨c3, _ | ⟨c4, rest⟩⟩⟩⟩
    · have hz : b64quanta [] = some [] := rfl
      rw [hz] at h
      injection h with h
      intro b hb
      rw [← h] at hb
      simp at hb
    · rw [b64quanta.eq_def] at h
      simp at h
    · rw [b64quanta.eq_def] at h
      simp at h
    · rw [b64quanta.eq_def] at h
      simp at h
    · rw [b64quanta.eq_def] at h
      simp only [] at h
      cases hv1 : b64Val c1 with
      | none => rw [hv1] at h; simp at h
      | some x1 =>
      cases hv2 : b64Val c2 with
      | none => rw [hv1, hv2] at h; simp at h
      | some x2 =>
      rw [hv1, hv2] at h
      simp only [] at h
      by_cases hc3 : c3 = 61
      · rw [if_pos hc3] at h
        split_ifs at h with hpad
        · injection h with h
          intro b hb
          rw [← h] at hb
          have := b64Val_lt c1 x1 hv1
          have := b64Val_lt c2 x2 hv2
          simp only [List.mem_singleton] at hb
          omega
      · rw [if_neg hc3] at h
        cases hv3 : b64Val c3 with
        | none => rw [hv3] at h; simp at h
        | some x3 =>
        rw [hv3] at h
        simp only [] at h
        by_cases hc4 : c4 = 61
        · rw [if_pos hc4] at h
          split_ifs at h with hrest
          · injection h with h
            intro b hb
            rw [← h] at hb
            have := b64Val_lt c1 x1 hv1
            have := b64Val_lt c2 x2 hv2
            have := b64Val_lt c3 x3 hv3
            simp only [List.mem_cons, List.not_mem_nil, or_false] at hb
            rcases hb with rfl | rfl <;> omega
        · rw [if_neg hc4] at h
          cases hv4 : b64Val c4 with
          | none => rw [hv4] at h; simp at h
          | some x4 =>
          rw [hv4] at h
          simp only [] at h
          cases hq : b64quanta rest with
          | none => rw [hq] at h; simp at h
          | some o =>
          rw [hq] at h
          simp only [Option.map_some', Option.some.injEq] at h
          intro b hb
          rw [← h] at hb
          have := b64Val_lt c1 x1 hv1
          have := b64Val_lt c2 x2 hv2
          have := b64Val_lt c3 x3 hv3
          have := b64Val_lt c4 x4 hv4
          rcases List.mem_cons.mp hb with rfl | hb2
          · omega
          rcases List.mem_cons.mp hb2 with rfl | hb3
          · omega
          rcases List.mem_cons.mp hb3 with rfl | hb4
          · omega
          · refine ih rest o (by simp at hl; omega) hq b hb4

theorem b64quanta_lt256 (s out : List Nat) (h : b64quanta s = some out) :
    ∀ b ∈ out, b < 256 :=
  b64quanta_lt256_fuel s.length s out (Nat.le_refl _) h

theorem decodeEnc_lt256 (e : Nat) (t content : List Nat) (h : decodeEnc e t = some content) :
    ∀ b ∈ content, b < 256 := by
  rw [decodeEnc] at h
  split_ifs at h
  · exact b64quanta_lt256 _ content h
  · exact qDecode_lt256 t content h

theorem mem_foldr_append {α : Type} (f : α → List Nat) (l : List α) (b : Nat) :
    b ∈ l.foldr (fun x acc => f x ++ acc) [] ↔ ∃ x ∈ l, b ∈ f x := by
  induction l with
  | nil => simp
  | cons a l ih => simp [ih]

theorem big5Decode_lt256 (content : List Nat) : ∀ b ∈ big5Decode content, b < 256 := by
  induction content using big5Decode.induct with
  | case1 => simp [big5Decode]
  | case2 b rest hlt ih =>
    intro x hx
    rw [big5Decode.eq_def] at hx
    simp only [if_pos hlt] at hx
    rcases List.mem_cons.mp hx with rfl | hx2
    · omega
    · exact ih x hx2
  | case3 b hge lo rest' ih =>
    intro x hx
    rw [big5Decode.eq_def] at hx
    simp only [] at hx
    rw [if_neg hge] at hx
    rcases List.mem_append.mp hx with hx1 | hx2
    · rw [big5Pair] at hx1
      split_ifs at hx1 <;> simp at hx1 <;> omega
    · exact ih x hx2
  | case4 b hge =>
    intro x hx
    rw [big5Decode.eq_def] at hx
    simp only [] at hx
    rw [if_neg hge] at hx
    simp at hx
    omega

theorem wdConvert_lt256 (cs content out : List Nat) (h : wdConvert cs content = some out)
    (hc : ∀ b ∈ content, b < 256) : ∀ b ∈ out, b < 256 := by
  rw [wdConvert] at h
  split_ifs at h with h1 h2 h3
  · injection h with h
    rw [← h]
    exact hc
  · injection h with h
    intro b hb
    rw [← h] at hb
    rcases (mem_foldr_append latin1Rune content b).mp hb with ⟨x, hx, hbx⟩
    have := hc x hx
    rw [latin1Rune] at hbx
    split_ifs at hbx <;> simp at hbx <;> omega
  · injection h with h
    intro b hb
    rw [← h] at hb
    rcases (mem_foldr_append _ content b).mp hb with ⟨x, hx, hbx⟩
    have := hc x hx
    split_ifs at hbx <;> simp at hbx <;> omega
  · rw [newCharsetReader] at h
    split_ifs at h with hb5 hl2
    · injection h with h
      rw [← h]
      exact big5Decode_lt256 content
    · injection h with h
      intro b hb
      rw [← h] at hb
      rw [latin2Decode] at hb
      rcases (mem_foldr_append _ content b).mp hb with ⟨x, hx, hbx⟩
      have := hc x hx
      split_ifs at hbx <;> simp at hbx <;> omega

theorem reencode_word (cs : List Nat) (e : Nat) (t : List Nat)
    (hws : ∀ b ∈ mkWord cs e t, isWhiteSpaceRune b = false) :
    decodeToUTF8Base64Header (mkWord cs e t)
      = bEncode (str "UTF-8") (decodeHeader (mkWord cs e t)) := by
  have hcont : strContains (mkWord cs e t) eqMark = true := by
    have := strContains_of_leads_mid [] (mkWord cs e t) (by simp)
      (by simpa using mkWord_leads cs e t [])
    simpa using this
  rw [decodeToUTF8Base64Header, if_neg (by simp [hcont])]
  have hfields : fieldsFunc (mkWord cs e t) = [mkWord cs e t] := by
    apply fields_single
    · simp [mkWord]
    · exact hws
  rw [hfields]
  show joinSpace [reencodeToken (mkWord cs e t)]
    = bEncode (str "UTF-8") (decodeHeader (mkWord cs e t))
  have hlen : 4 < (mkWord cs e t).length := by
    rw [mkWord_length]
    omega
  have hhead : (mkWord cs e t).headD 0 = 61 := by
    simp [mkWord]
  have hlast : (mkWord cs e t).getLastD 0 = 61 := by
    have hsplit : mkWord cs e t = ([61, 63] ++ cs ++ [63, e, 63] ++ t ++ [63]) ++ [61] := by
      simp [mkWord]
    rw [hsplit, getLastD_snoc]
  rw [reencodeToken, if_pos ⟨hlen, hcont⟩]
  simp only [hhead]
  norm_num
  have hlast' : (mkWord cs e t).getLast?.getD 0 = 61 := by
    rw [← List.getLastD_eq_getLast?]
    exact hlast
  rw [hlast']
  norm_num
  simp [joinSpace]

theorem utf8RuneLen_pos (b0 : Nat) (rest : List Nat) : 1 ≤ utf8RuneLen (b0 :: rest) := by
  rcases rest with _ | ⟨b1, _ | ⟨b2, _ | ⟨b3, r⟩⟩⟩ <;>
    (rw [utf8RuneLen.eq_def]; simp only []; split_ifs <;> omega)

theorem chunksB64_join : ∀ (fuel : Nat) (s : List Nat) (cl : Nat) (cur : List Nat),
    (chunksB64 fuel s cl cur).join = cur ++ s := by
  intro fuel
  induction fuel with
  | zero =>
    intro s cl cur
    cases s with
    | nil => simp [chunksB64]
    | cons c rest => simp [chunksB64]
  | succ fuel ih =>
    intro s cl cur
    cases s with
    | nil => simp [chunksB64]
    | cons c rest =>
      rw [chunksB64.eq_def]
      simp only []
      split_ifs
      · rw [ih]
        simp [List.append_assoc]
      · simp [ih, List.append_assoc]

theorem chunksB64_ne_nil : ∀ (fuel : Nat) (s : List Nat) (cl : Nat) (cur : List Nat),
    chunksB64 fuel s cl cur ≠ [] := by
  intro fuel
  induction fuel with
  | zero =>
    intro s cl cur
    cases s with
    | nil => simp [chunksB64]
    | cons c rest => simp [chunksB64]
  | succ fuel ih =>
    intro s cl cur
    cases s with
    | nil => simp [chunksB64]
    | cons c rest =>
      rw [chunksB64.eq_def]
      simp only []
      split_ifs
      · exact ih _ _ _
      · simp

theorem wordsJoin_len_ge : ∀ (l : List (List Nat)), l ≠ [] →
    2 * l.length ≤ (wordsJoin l).length := by
  intro l
  induction l with
  | nil => intro h; exact absurd rfl h
  | cons c rest ih =>
    intro _
    cases rest with
    | nil =>
      rw [show wordsJoin [c] = mkWord (str "UTF-8") 98 (b64encode c) from rfl, mkWord_length]
      simp
    | cons c2 rest2 =>
      have hr := ih (by simp)
      rw [show wordsJoin (c :: c2 :: rest2)
          = mkWord (str "UTF-8") 98 (b64encode c) ++ [32] ++ wordsJoin (c2 :: rest2) from rfl]
      rw [List.length_append, List.length_append, mkWord_length]
      simp only [List.length_cons] at hr ⊢
      omega

theorem open_join_close : ∀ l : List (List Nat), l ≠ [] →
    [61, 63] ++ str "UTF-8" ++ [63, 98, 63] ++
        joinWithSep (l.map b64encode) ([63, 61, 32, 61, 63] ++ str "UTF-8" ++ [63, 98, 63]) ++
      [63, 61] = wordsJoin l := by
  intro l
  induction l with
  | nil => intro h; exact absurd rfl h
  | cons x rest ih =>
    intro _
    cases rest with
    | nil => simp [joinWithSep, wordsJoin, mkWord]
    | cons y r =>
      have hjw : wordsJoin (x :: y :: r)
          = mkWord (str "UTF-8") 98 (b64encode x) ++ [32] ++ wordsJoin (y :: r) := rfl
      have hjs : joinWithSep ((x :: y :: r).map b64encode)
            ([63, 61, 32, 61, 63] ++ str "UTF-8" ++ [63, 98, 63])
          = b64encode x ++ ([63, 61, 32, 61, 63] ++ str "UTF-8" ++ [63, 98, 63]) ++
              joinWithSep ((y :: r).map b64encode)
                ([63, 61, 32, 61, 63] ++ str "UTF-8" ++ [63, 98, 63]) := rfl
      rw [hjw, ← ih (by simp), hjs]
      simp [mkWord]

theorem bEncode_single (charset s : List Nat) (hne : needsEncoding s = true)
    (hcond : equalFold charset (str "utf-8") = false ∨ (s.length + 2) / 3 * 4 ≤ 63) :
    bEncode charset s = mkWord charset 98 (b64encode s) := by
  rw [bEncode, if_neg (by simp [hne]), if_pos hcond]
  simp [mkWord]

theorem bEncode_utf8_split (s : List Nat) (hne : needsEncoding s = true)
    (hlong : ¬ ((s.length + 2) / 3 * 4 ≤ 63)) :
    bEncode (str "UTF-8") s = wordsJoin (chunksB64 s.length s 0 []) := by
  rw [bEncode, if_neg (by simp [hne])]
  rw [if_neg (by
    intro hor
    rcases hor with hf | hl
    · exact absurd hf (by decide)
    · exact hlong hl)]
  exact open_join_close _ (chunksB64_ne_nil _ _ _ _)

theorem decodeLoop_wordsJoin_gap : ∀ (chunks : List (List Nat)) (f : Nat) (buf : List Nat),
    chunks ≠ [] → (∀ c ∈ chunks, ∀ b ∈ c, b < 256) → 2 * chunks.length ≤ f →
    decodeLoop f true buf ([32] ++ wordsJoin chunks) = some (buf ++ chunks.join) := by
  intro chunks
  induction chunks with
  | nil => intro f buf h; exact absurd rfl h
  | cons c rest ih =>
    intro f buf _ hb hf
    rw [List.length_cons] at hf
    obtain ⟨f1, rfl⟩ : ∃ f1, f = f1 + 1 := ⟨f - 1, by omega⟩
    have hdec : decodeEnc 98 (b64encode c) = some c := by
      rw [decodeEnc, if_pos (Or.inr rfl)]
      exact b64decode_encode c (hb c (by simp))
    cases rest with
    | nil =>
      have hshape : [32] ++ wordsJoin [c]
          = [32] ++ (mkWord (str "UTF-8") 98 (b64encode c) ++ []) := by
        simp [wordsJoin]
      rw [hshape]
      rw [decodeLoop_gap f1 buf [32] (str "UTF-8") 98 (b64encode c) [] c c (by simp) (by decide)
        (by decide) (fun b hbm => (b64encode_ne c b hbm).1) hdec (wdConvert_utf8 c)]
      obtain ⟨f2, rfl⟩ : ∃ f2, f1 = f2 + 1 := ⟨f1 - 1, by omega⟩
      rw [decodeLoop_break f2 true _ [] (scanWord_no_marker [] strIndex_nil_eqMark)]
      simp
    | cons c2 rest2 =>
      have hshape : [32] ++ wordsJoin (c :: c2 :: rest2)
          = [32] ++ (mkWord (str "UTF-8") 98 (b64encode c)
              ++ ([32] ++ wordsJoin (c2 :: rest2))) := by
        rw [show wordsJoin (c :: c2 :: rest2)
            = mkWord (str "UTF-8") 98 (b64encode c) ++ [32] ++ wordsJoin (c2 :: rest2) from rfl]
        simp [List.append_assoc]
      rw [hshape]
      rw [decodeLoop_gap f1 buf [32] (str "UTF-8") 98 (b64encode c)
        ([32] ++ wordsJoin (c2 :: rest2)) c c (by simp) (by decide) (by decide)
        (fun b hbm => (b64encode_ne c b hbm).1) hdec (wdConvert_utf8 c)]
      rw [ih f1 (buf ++ c) (by simp) (fun x hx b hbx => hb x (by simp [hx]) b hbx)
        (by rw [List.length_cons] at hf ⊢; omega)]
      simp [List.append_assoc]

theorem decodeHeader_wordsJoin (chunks : List (List Nat)) (hne : chunks ≠ [])
    (hb : ∀ c ∈ chunks, ∀ b ∈ c, b < 256) :
    decodeHeader (wordsJoin chunks) = chunks.join := by
  cases chunks with
  | nil => exact absurd rfl hne
  | cons c rest =>
    have hdec : decodeEnc 98 (b64encode c) = some c := by
      rw [decodeEnc, if_pos (Or.inr rfl)]
      exact b64decode_encode c (hb c (by simp))
    cases rest with
    | nil =>
      rw [show wordsJoin [c] = mkWord (str "UTF-8") 98 (b64encode c) from rfl]
      rw [decodeHeader_word (str "UTF-8") 98 (b64encode c) c c (by decide)
        (fun b hbm => (b64encode_ne c b hbm).1) hdec (wdConvert_utf8 c)]
      simp
    | cons c2 rest2 =>
      have hshape : wordsJoin (c :: c2 :: rest2)
          = mkWord (str "UTF-8") 98 (b64encode c) ++ ([32] ++ wordsJoin (c2 :: rest2)) := by
        rw [show wordsJoin (c :: c2 :: rest2)
            = mkWord (str "UTF-8") 98 (b64encode c) ++ [32] ++ wordsJoin (c2 :: rest2) from rfl]
        simp [List.append_assoc]
      rw [hshape]
      apply decodeHeader_of_some
      · have := strContains_of_leads_mid []
          (mkWord (str "UTF-8") 98 (b64encode c) ++ ([32] ++ wordsJoin (c2 :: rest2)))
          (by simp) (mkWord_leads _ _ _ _)
        simpa using this
      have hsplit := goDecodeHeader_split []
        (mkWord (str "UTF-8") 98 (b64encode c) ++ ([32] ++ wordsJoin (c2 :: rest2)))
        (by simp) (mkWord_leads _ _ _ _)
      simp only [List.nil_append] at hsplit
      rw [hsplit]
      rw [decodeLoop_word _ false [] _ 0 (str "UTF-8") 98 (b64encode c)
        ([32] ++ wordsJoin (c2 :: rest2)) c c
        (scanWord_word (str "UTF-8") 98 (b64encode c) _ (by decide)
          (fun b hbm => (b64encode_ne c b hbm).1))
        hdec (wdConvert_utf8 c) (by simp)]
      have hlen2 : 2 * (c2 :: rest2).length ≤
          (mkWord (str "UTF-8") 98 (b64encode c) ++ ([32] ++ wordsJoin (c2 :: rest2))).length := by
        have hwl := wordsJoin_len_ge (c2 :: rest2) (by simp)
        rw [List.length_append, List.length_append, mkWord_length]
        simp only [List.length_cons] at hwl ⊢
        omega
      obtain ⟨f1, hf1⟩ : ∃ f1, (mkWord (str "UTF-8") 98 (b64encode c)
          ++ ([32] ++ wordsJoin (c2 :: rest2))).length = f1 + 1 :=
        ⟨(mkWord (str "UTF-8") 98 (b64encode c) ++ ([32] ++ wordsJoin (c2 :: rest2))).length - 1,
          by rw [List.length_append, List.length_append, mkWord_length]; omega⟩
      rw [hf1]
      rw [decodeLoop_wordsJoin_gap (c2 :: rest2) (f1 + 1) ([] ++ c) (by simp)
        (fun x hx b hbx => hb x (by simp [hx]) b hbx) (by omega)]
      simp

/-- Claim C4, amended: decoding, re-encoding and decoding again preserves
the decoded text of a well-formed single-charset value that is one
whitespace-free encoded-word, provided the decoded text either needs
re-encoding (holds a byte outside printable ASCII) or holds no `=?` marker
of its own.  The proof covers both re-encoding branches: one target word,
and the RFC 2047 split into several space-separated target words for
decoded texts of 46 bytes or more, whose gaps the second decode elides. -/
theorem claim_C4_amended (cs : List Nat) (e : Nat) (t content out : List Nat)
    (hws : ∀ b ∈ mkWord cs e t, isWhiteSpaceRune b = false)
    (hcs : ∀ b ∈ cs, b ≠ 63) (ht : ∀ b ∈ t, b ≠ 63)
    (hdec : decodeEnc e t = some content) (hconv : wdConvert cs content = some out)
    (hclean : needsEncoding out = true ∨ strContains out eqMark = false) :
    decodeHeader (decodeToUTF8Base64Header (mkWord cs e t))
      = decodeHeader (mkWord cs e t) := by
  have hdh : decodeHeader (mkWord cs e t) = out :=
    decodeHeader_word cs e t content out hcs ht hdec hconv
  rw [reencode_word cs e t hws, hdh]
  by_cases hne : needsEncoding out = true
  · have hb : ∀ b ∈ out, b < 256 :=
      wdConvert_lt256 cs content out hconv (decodeEnc_lt256 e t content hdec)
    by_cases hlong : (out.length + 2) / 3 * 4 ≤ 63
    · rw [bEncode_single (str "UTF-8") out hne (Or.inr hlong)]
      have hb64 : decodeEnc 98 (b64encode out) = some out := by
        rw [decodeEnc, if_pos (Or.inr rfl)]
        exact b64decode_encode out hb
      exact decodeHeader_word (str "UTF-8") 98 (b64encode out) out out (by decide)
        (fun b hbm => (b64encode_ne out b hbm).1) hb64 (wdConvert_utf8 out)
    · rw [bEncode_utf8_split out hne hlong]
      rw [decodeHeader_wordsJoin (chunksB64 out.length out 0 [])
        (chunksB64_ne_nil _ _ _ _)
        (by
          intro ch hch b hbm
          have hbj : b ∈ (chunksB64 out.length out 0 []).join :=
            List.mem_join.mpr ⟨ch, hch, hbm⟩
          rw [chunksB64_join] at hbj
          exact hb b (by simpa using hbj))]
      rw [chunksB64_join]
      simp
  · have hcf : strContains out eqMark = false := by
      rcases hclean with hcl | hcl
      · exact absurd hcl hne
      · exact hcl
    rw [bEncode, if_pos (by simpa using hne)]
    rw [decodeHeader, if_pos hcf]

/-- Counterexamples to claim C4 as stated, forcing the amendment: first, a
well-formed single-charset value whose decoded text is itself an
encoded-word — the re-encoder returns the printable decoded text verbatim
and the second decode decodes once more; second, a well-formed
single-charset value of two encoded-words separated by whitespace — the
first decode elides the gap while the re-encoding keeps the tokens apart,
so the second decode differs. -/
theorem claim_C4_counterexample :
    (decodeHeader (decodeToUTF8Base64Header (str "=?utf-8?q?=3D=3Futf-8=3Fq=3Fa=3F=3D?="))
        = str "a" ∧
      decodeHeader (str "=?utf-8?q?=3D=3Futf-8=3Fq=3Fa=3F=3D?=") = str "=?utf-8?q?a?=" ∧
      str "a" ≠ str "=?utf-8?q?a?=") ∧
    (decodeHeader (decodeToUTF8Base64Header (str "=?utf-8?q?a?= =?utf-8?q?b?="))
        = str "a b" ∧
      decodeHeader (str "=?utf-8?q?a?= =?utf-8?q?b?=") = str "ab" ∧
      str "a b" ≠ str "ab") := by
  refine ⟨⟨by decide, by decide, by decide⟩, ⟨by decide, by decide, by decide⟩⟩

set_option maxRecDepth 80000 in
/-- Witness for the amended C4 at the utf-8 vector of the repository's
re-encoding tests (single-word branch) and at a 46-byte decoded text of
23 two-byte runes (splitting branch). -/
theorem claim_C4_witness :
    (decodeHeader (decodeToUTF8Base64Header
          (mkWord (str "utf-8") 113 (str "abcABC_=24_=c2=a2_=e2=82=ac")))
        = decodeHeader (mkWord (str "utf-8") 113 (str "abcABC_=24_=c2=a2_=e2=82=ac"))) ∧
    (decodeHeader (decodeToUTF8Base64Header (mkWord (str "utf-8") 113
          (str "=c3=a9=c3=a9=c3=a9=c3=a9=c3=a9=c3=a9=c3=a9=c3=a9=c3=a9=c3=a9=c3=a9=c3=a9=c3=a9=c3=a9=c3=a9=c3=a9=c3=a9=c3=a9=c3=a9=c3=a9=c3=a9=c3=a9=c3=a9")))
        = decodeHeader (mkWord (str "utf-8") 113
          (str "=c3=a9=c3=a9=c3=a9=c3=a9=c3=a9=c3=a9=c3=a9=c3=a9=c3=a9=c3=a9=c3=a9=c3=a9=c3=a9=c3=a9=c3=a9=c3=a9=c3=a9=c3=a9=c3=a9=c3=a9=c3=a9=c3=a9=c3=a9"))) :=
  ⟨claim_C4_amended (str "utf-8") 113 (str "abcABC_=24_=c2=a2_=e2=82=ac")
      (str "abcABC $ ¢ €") (str "abcABC $ ¢ €")
      (by decide) (by decide) (by decide) (by decide) (by decide) (by decide),
    claim_C4_amended (str "utf-8") 113
      (str "=c3=a9=c3=a9=c3=a9=c3=a9=c3=a9=c3=a9=c3=a9=c3=a9=c3=a9=c3=a9=c3=a9=c3=a9=c3=a9=c3=a9=c3=a9=c3=a9=c3=a9=c3=a9=c3=a9=c3=a9=c3=a9=c3=a9=c3=a9")
      (str "ééééééééééééééééééééééé") (str "ééééééééééééééééééééééé")
      (by decide) (by decide) (by decide) (by decide) (by decide) (by decide)⟩

set_option maxRecDepth 80000 in
/-- Claim C3, amended: with the `=?` marker present, the value is split at
space, tab, carriage return and line feed; each token longer than 4 bytes
containing `=?` becomes, after stashing one leading `(` and one trailing
`)`, `Encode("UTF-8", decodeHeader token)` — one or more space-separated
encoded-words in the fixed UTF-8 and base64 pair when the decoded text
needs encoding (several words when its encoded length exceeds RFC 2047's
63-byte content budget), the decoded text itself otherwise; other tokens
pass unchanged; tokens re-join with exactly one space.  The concrete
conjuncts show the one canonical target for three source charsets, the
lossy single-space re-join, and the split of a 46-byte decoded text into
two target words. -/
theorem claim_C3_amended :
    (∀ input : List Nat, strContains input eqMark = true →
      decodeToUTF8Base64Header input
        = joinSpace ((fieldsFunc input).map (fun token =>
            if 4 < token.length ∧ strContains token eqMark = true then
              (if token.headD 0 = 40 then [40] else []) ++
                bEncode (str "UTF-8") (decodeHeader
                  (if (if token.headD 0 = 40 then token.drop 1 else token).getLastD 0 = 41 then
                    (if token.headD 0 = 40 then token.drop 1 else token).dropLast
                  else if token.headD 0 = 40 then token.drop 1 else token)) ++
                (if (if token.headD 0 = 40 then token.drop 1 else token).getLastD 0 = 41
                  then [41] else [])
            else token))) ∧
    decodeToUTF8Base64Header (str "=?utf-8?q?abcABC_=24_=c2=a2_=e2=82=ac?=")
      = str "=?UTF-8?b?YWJjQUJDICQgwqIg4oKs?=" ∧
    decodeToUTF8Base64Header (str "=?iso-8859-1?q?#=a3_c=a9_r=ae_u=b5?=")
      = str "=?UTF-8?b?I8KjIGPCqSBywq4gdcK1?=" ∧
    decodeToUTF8Base64Header (str "=?big5?q?=a1=5d_=a1=61_=a1=71?=")
      = str "=?UTF-8?b?77yIIO+9myDjgIg=?=" ∧
    decodeToUTF8Base64Header (str "a  b\t=?utf-8?q?=c2=a2?=") = str "a b =?UTF-8?b?wqI=?=" ∧
    decodeToUTF8Base64Header (str "=?utf-8?q?=c3=a9=c3=a9=c3=a9=c3=a9=c3=a9=c3=a9=c3=a9=c3=a9=c3=a9=c3=a9=c3=a9=c3=a9=c3=a9=c3=a9=c3=a9=c3=a9=c3=a9=c3=a9=c3=a9=c3=a9=c3=a9=c3=a9=c3=a9?=")
      = str "=?UTF-8?b?w6nDqcOpw6nDqcOpw6nDqcOpw6nDqcOpw6nDqcOpw6nDqcOpw6nDqcOpw6k=?= =?UTF-8?b?w6k=?=" := by
  refine ⟨?_, by decide, by decide, by decide, by decide, by decide⟩
  intro input h
  rw [decodeToUTF8Base64Header, if_neg (by simp [h])]
  rfl

/-- Counterexample to claim C3 as stated: a token longer than 4 bytes
containing `=?` whose decoded text is plain ASCII is replaced by that
decoded text, not by an encoded-word in the target pair (the result does
not even contain the `=?` marker every encoded-word carries). -/
theorem claim_C3_counterexample :
    decodeToUTF8Base64Header (str "=?utf-8?q?abc?=") = str "abc" ∧
    strContains (str "abc") eqMark = false ∧
    4 < (str "=?utf-8?q?abc?=").length ∧
    strContains (str "=?utf-8?q?abc?=") eqMark = true := by
  refine ⟨by decide, by decide, by decide, by decide⟩

/-- Witness for the amended C3 at the first concrete test vector. -/
theorem claim_C3_witness :
    strContains (str "=?utf-8?q?abcABC_=24_=c2=a2_=e2=82=ac?=") eqMark = true ∧
    decodeToUTF8Base64Header (str "=?utf-8?q?abcABC_=24_=c2=a2_=e2=82=ac?=")
      = joinSpace ((fieldsFunc (str "=?utf-8?q?abcABC_=24_=c2=a2_=e2=82=ac?=")).map
          (fun token =>
            if 4 < token.length ∧ strContains token eqMark = true then
              (if token.headD 0 = 40 then [40] else []) ++
                bEncode (str "UTF-8") (decodeHeader
                  (if (if token.headD 0 = 40 then token.drop 1 else token).getLastD 0 = 41 then
                    (if token.headD 0 = 40 then token.drop 1 else token).dropLast
                  else if token.headD 0 = 40 then token.drop 1 else token)) ++
                (if (if token.headD 0 = 40 then token.drop 1 else token).getLastD 0 = 41
                  then [41] else [])
            else token)) :=
  ⟨by decide, claim_C3_amended.1 (str "=?utf-8?q?abcABC_=24_=c2=a2_=e2=82=ac?=") (by decide)⟩

theorem rhLoop_noTerm : ∀ (f : Nat) (s buf : List Nat), noTermF f s = true →
    rhLoop f buf s = .error () := by
  intro f
  induction f with
  | zero => intro s buf h; rfl
  | succ f ih =>
    intro s buf h
    rw [noTermF] at h
    rw [rhLoop]
    cases hsp : splitNL s with
    | none => rfl
    | some pr =>
      obtain ⟨line, rest⟩ := pr
      rw [hsp] at h
      simp only [] at h
      simp only []
      by_cases hterm : line = [] ∨ line.headD 0 = 13
      · rw [if_pos hterm] at h
        simp at h
      · rw [if_neg hterm] at h
        rw [if_neg hterm]
        exact ih rest _ h

/-- Claim C9: when the stream ends before the blank-line terminator of the
header block, `readHeader` propagates the read error directly: the result
is an error, no header map, and the part's diagnostics are untouched. -/
theorem claim_C9 (s : List Nat) (p : GoPart) (h : noTermF (s.length + 1) s = true) :
    (readHeader s p).1 = .error () ∧ (readHeader s p).2 = p := by
  constructor
  · rw [readHeader]
    rw [rhLoop_noTerm (s.length + 1) s [] h]
  · rfl

/-- Witness for C9 at a concrete truncated header block. -/
theorem claim_C9_witness :
    noTermF ((str "From: somebody\nX: y").length + 1) (str "From: somebody\nX: y") = true ∧
    (readHeader (str "From: somebody\nX: y") ⟨[]⟩).1 = .error () ∧
    (readHeader (str "From: somebody\nX: y") ⟨[]⟩).2 = ⟨[]⟩ :=
  ⟨by decide, (claim_C9 (str "From: somebody\nX: y") ⟨[]⟩ (by decide)).1,
    (claim_C9 (str "From: somebody\nX: y") ⟨[]⟩ (by decide)).2⟩

/-- Claim C10: `MIMEError.String` renders `[E] Name: Detail` when Severe
and `[W] Name: Detail` otherwise; the flag affects only that prefix. -/
theorem claim_C10 (e : MIMEError) :
    e.String = (if e.Severe then "[E] " else "[W] ") ++ e.Name ++ ": " ++ e.Detail := by
  obtain ⟨n, d, sv⟩ := e
  cases sv <;> rfl

/-- The header block of the repository's `TestReadHeader` and of spec
section 8's continuation-heuristic scenario. -/
def testBlock : List Nat :=
  str "From: somebody\nContent-Type: text/plain;\n charset=us-ascii\nX-Bad-Continuation: line1=foo;\nline2=bar; name=value:text\nX-Not-Continuation: line1=foo;\nline2: bar\n\nPart body\n"

/-- The header map the source actually produces on `testBlock`: only the
whitespace-led continuation is folded; the colon-bearing
`line2=bar; name=value:text` line becomes its own (invalid-name) field
rather than being folded into `X-Bad-Continuation`. -/
def testBlockMap : MimeMap :=
  [(str "From", [str "somebody"]),
   (str "Content-Type", [str "text/plain; charset=us-ascii"]),
   (str "X-Bad-Continuation", [str "line1=foo;"]),
   (str "line2=bar; name=value", [str "text"]),
   (str "X-Not-Continuation", [str "line1=foo;"]),
   (str "Line2", [str "bar"])]

set_option maxRecDepth 40000 in
/-- Claim C1, evaluated on the code: `readHeader` leaves the cursor after
the blank line, maps `X-Not-Continuation` to `line1=foo;` with `line2`
its own field as the claim says, but does NOT fold the
`line2=bar; name=value:text` line into `X-Bad-Continuation`: that field
keeps only `line1=foo;`, never the joined value the claim (and the
repository's own test) expects — with or without folding whitespace. -/
theorem claim_C1_code_eval :
    (readHeader testBlock ⟨[]⟩).1 = .ok (testBlockMap, str "Part body\n") ∧
    mimeGet testBlockMap (str "X-Bad-Continuation") = str "line1=foo;" ∧
    mimeGet testBlockMap (str "X-Bad-Continuation")
      ≠ str "line1=foo; line2=bar; name=value:text" ∧
    str "line1=foo;" ≠ str "line1=foo;line2=bar;name=value:text" ∧
    mimeGet testBlockMap (str "X-Not-Continuation") = str "line1=foo;" ∧
    mimeGet testBlockMap (str "Line2") = str "bar" := by
  refine ⟨by rfl, by decide, by decide, by decide, by decide, by decide⟩
